import Mathlib

/-
  Verification of src/utils/context_generation.py (text-to-sql repository).

  Shallow embedding conventions:
  * Python strings are modelled as `List Char` (`LC`); `String.toList` turns
    Lean string literals into that representation.
  * The external sentence encoder and cosine similarity are abstracted into a
    single function `sim : Option LC → ℚ` giving, for a fixed question, the
    cosine similarity between the question embedding and the embedding of a
    text (`some s` for an actual string, `none` for Python `None`, which the
    code passes to the encoder when a column has no comment).  Python floats
    are modelled as rationals.
  * Python dicts are modelled as association lists in insertion order.
  * A raised Python exception is modelled as `Except.error` naming the
    exception; a normal return is `Except.ok`.
-/

set_option linter.unusedVariables false

abbrev LC := List Char

/-- Column record built by `parse_context`: declared type and the optional
preceding comment (`None` in Python when no comment line preceded). -/
structure CInfo where
  ty : LC
  comment : Option LC
  deriving DecidableEq

/-- Table record built by `parse_context`: table comment, column dict
(insertion order) and raw constraint lines. -/
structure TInfo where
  comment : LC
  columns : List (LC × CInfo)
  constraints : List LC
  deriving DecidableEq

/-- The metadata model: dict from table name to `TInfo`. -/
abbrev Metadata := List (LC × TInfo)

/-- A pruned result: dict from table name to its retained column names. -/
abbrev PR := List (LC × List LC)

/- ------------------------------------------------------------------ -/
/- Character-level utilities mirroring the Python string operations.   -/
/- ------------------------------------------------------------------ -/

/-- Python `\s` character class (ASCII): space, tab, newline, CR, FF, VT. -/
def isPySpace (c : Char) : Bool :=
  c = ' ' || c = '\t' || c = '\n' || c = '\r' || c = '\x0c' || c = '\x0b'

/-- Python `\w` character class (ASCII fragment): letters, digits, underscore. -/
def isWordChar (c : Char) : Bool :=
  c.isAlphanum || c = '_'

/-- Remove trailing characters satisfying `p`. -/
def dropTrailing (p : Char → Bool) (s : LC) : LC :=
  (s.reverse.dropWhile p).reverse

/-- Python `str.strip()`: remove leading and trailing whitespace. -/
def pyStrip (s : LC) : LC :=
  dropTrailing isPySpace (s.dropWhile isPySpace)

/-- Python `str.strip(chars)` for a one-character set: remove that character
from both ends (used for `strip('--')` and `strip(',')`, which strip the
character set, not the literal). -/
def pyStripChar (c : Char) (s : LC) : LC :=
  dropTrailing (fun x => x = c) (s.dropWhile (fun x => x = c))

/-- Does `hay` start with `needle`? -/
def startsWithS : LC → LC → Bool
  | [], _ => true
  | _ :: _, [] => false
  | a :: as, b :: bs => a = b && startsWithS as bs

/-- Does `hay` contain `needle` as a contiguous substring (Python `in`)? -/
def containsS (needle : LC) : LC → Bool
  | [] => startsWithS needle []
  | c :: r => startsWithS needle (c :: r) || containsS needle r

/- ------------------------------------------------------------------ -/
/- prune_top_k, steps 1-3 (similarities, mean threshold, selection).   -/
/- ------------------------------------------------------------------ -/

/-- Column-comment similarities of one table, in declaration order. -/
def colSims (sim : Option LC → ℚ) : List (LC × CInfo) → List ℚ
  | [] => []
  | q :: r => sim q.2.comment :: colSims sim r

/-- Step 1 of `prune_top_k`: the pooled similarity list `all_sim` — for each
table (metadata order) the table-comment similarity followed by each
column-comment similarity. -/
def allSims (sim : Option LC → ℚ) : Metadata → List ℚ
  | [] => []
  | p :: r => sim (some p.2.comment) :: (colSims sim p.2.columns ++ allSims sim r)

/-- The arithmetic mean of the pooled similarities (`sum(all_sim)/len(all_sim)`). -/
def meanSim (sim : Option LC → ℚ) (md : Metadata) : ℚ :=
  (allSims sim md).sum / ((allSims sim md).length : ℚ)

/-- Step 2 of `prune_top_k`: the acceptance threshold,
`mean_similarity - mean_similarity * 0.05`. -/
def threshold (sim : Option LC → ℚ) (md : Metadata) : ℚ :=
  meanSim sim md - meanSim sim md * (5 / 100)

/-- Inner loop of step 3: the columns of one table whose comment similarity is
strictly above `t`. -/
def pruneColumns (sim : Option LC → ℚ) (t : ℚ) : List (LC × CInfo) → List LC
  | [] => []
  | q :: r =>
    if sim q.2.comment > t then q.1 :: pruneColumns sim t r else pruneColumns sim t r

/-- Outer loop of step 3 against a fixed threshold `t`. -/
def prunedAux (sim : Option LC → ℚ) (t : ℚ) : Metadata → PR
  | [] => []
  | p :: r =>
    if sim (some p.2.comment) > t then
      if pruneColumns sim t p.2.columns = [] then prunedAux sim t r
      else (p.1, pruneColumns sim t p.2.columns) :: prunedAux sim t r
    else prunedAux sim t r

/-- Step 3 of `prune_top_k`: tables whose comment similarity is strictly above
the threshold and that keep at least one column. -/
def prunedResults (sim : Option LC → ℚ) (md : Metadata) : PR :=
  prunedAux sim (threshold sim md) md

/- ------------------------------------------------------------------ -/
/- extract_key_columns and step 4 of prune_top_k (key injection).      -/
/- ------------------------------------------------------------------ -/

/-- Attempt to match the regex `FOREIGN KEY\s*\(([^)]+)\)\s+REFERENCES\s+(\w+)`
anchored at the start of `s`; returns the raw first capture (inside the
parentheses) and the referenced table name. -/
def matchFKAt (s : LC) : Option (LC × LC) :=
  if startsWithS ("FOREIGN KEY".toList) s then
    match (s.drop 11).dropWhile isPySpace with
    | '(' :: r2 =>
      let inner := r2.takeWhile (fun c => c ≠ ')')
      if inner = [] then none else
      match r2.drop inner.length with
      | ')' :: r3 =>
        let ws := r3.takeWhile isPySpace
        if ws = [] then none else
        let r4 := r3.drop ws.length
        if startsWithS ("REFERENCES".toList) r4 then
          let r5 := r4.drop 10
          let ws2 := r5.takeWhile isPySpace
          if ws2 = [] then none else
          let w := (r5.drop ws2.length).takeWhile isWordChar
          if w = [] then none else some (inner, w)
        else none
      | _ => none
    | _ => none
  else none

/-- `re.search` of the foreign-key pattern: leftmost position where the
pattern matches. -/
def fkSearch : LC → Option (LC × LC)
  | [] => matchFKAt []
  | c :: r =>
    match matchFKAt (c :: r) with
    | some m => some m
    | none => fkSearch r

/-- Python `dict.setdefault(k, []).append(v)` on an association list. -/
def dictAppend (d : PR) (k : LC) (v : LC) : PR :=
  match d with
  | [] => [(k, [v])]
  | (k', vs) :: r => if k' = k then (k', vs ++ [v]) :: r else (k', vs) :: dictAppend r k v

/-- Body of the `extract_key_columns` loop for one constraint line. -/
def extractStep (referenced : List LC) (d : PR) (c : LC) : PR :=
  match fkSearch c with
  | some (col, ref) => if ref ∈ referenced then dictAppend d ref (pyStrip col) else d
  | none => d

/-- `extract_key_columns`: map from referenced table to the (stripped) raw
referencing-column captures of the foreign-key constraints whose target is
among `referenced`. -/
def extract_key_columns (cs : List LC) (referenced : List LC) : PR :=
  cs.foldl (extractStep referenced) []

/-- Update the value at key `k` in place (Python `d[k] = f(d[k])`); no-op when
the key is absent. -/
def updV (st : PR) (k : LC) (f : List LC → List LC) : PR :=
  match st with
  | [] => []
  | (k', v) :: r => if k' = k then (k', f v) :: r else (k', v) :: updV r k f

/-- First value stored at key `k`. -/
def lookupV (k : LC) : PR → Option (List LC)
  | [] => none
  | (k', v) :: r => if k' = k then some v else lookupV k r

/-- Body of the inner loop of step 4: prepend the key columns of one
`fk_columns_info` item to the referencing table `tn` and (when distinct and
present) to the referenced table. -/
def applyItem (tn : LC) (st : PR) (item : LC × List LC) : PR :=
  let st1 := updV st tn (fun v => item.2 ++ v)
  if item.1 ≠ tn ∧ item.1 ∈ st1.map Prod.fst then updV st1 item.1 (fun v => item.2 ++ v)
  else st1

/-- Body of the outer loop of step 4: process one metadata entry, prepending
extracted key columns when the table survived pruning. -/
def injectStep (keys0 : List LC) (st : PR) (p : LC × TInfo) : PR :=
  if p.1 ∈ st.map Prod.fst then
    (extract_key_columns p.2.constraints keys0).foldl (applyItem p.1) st
  else st

/-- Step 4 of `prune_top_k`: iterate the metadata model and, for each surviving
table, prepend the extracted key columns (the referenced-table set is the
surviving key set computed once up front). -/
def injectKeys (md : Metadata) (pruned : PR) : PR :=
  md.foldl (injectStep (pruned.map Prod.fst)) pruned

/-- `format_top_k`: `(TABLE: n COLUMNS: c1, c2) (TABLE: ...)`. -/
def format_top_k (pruned : PR) : LC :=
  List.intercalate [' ']
    (pruned.map fun p =>
      "(TABLE: ".toList ++ p.1 ++ " COLUMNS: ".toList ++ List.intercalate (", ".toList) p.2 ++ [')'])

/-- `prune_top_k`: the `results` argument is accepted but never read.  An empty
pooled similarity list makes `len(all_sim)` zero and the mean computation
raises `ZeroDivisionError`. -/
def prune_top_k (sim : Option LC → ℚ) (results : PR) (md : Metadata) : Except String LC :=
  if (allSims sim md).length = 0 then .error "ZeroDivisionError"
  else .ok (format_top_k (injectKeys md (prunedResults sim md)))

/- ------------------------------------------------------------------ -/
/- get_top_k (top-k preselection, discarded by prune_top_k).           -/
/- ------------------------------------------------------------------ -/

/-- Descending insertion by similarity; on ties the earlier-inserted (smaller
index) element stays first, matching `torch.topk` tie behavior on CPU. -/
def insertRanked (x : ℚ × ℕ) : List (ℚ × ℕ) → List (ℚ × ℕ)
  | [] => [x]
  | y :: ys => if x.1 > y.1 then x :: y :: ys else y :: insertRanked x ys

/-- The preselected `results` dict of `get_top_k`: names and full column lists
of the `min k n` tables most similar to the question. -/
def topKResults (sim : Option LC → ℚ) (md : Metadata) (k : ℕ) : PR :=
  let sims := md.map fun p => sim (some p.2.comment)
  let ranked := sims.enum.foldl (fun acc p => insertRanked (p.2, p.1) acc) []
  ((ranked.take (min k md.length)).map Prod.snd).map fun i =>
    match md.get? i with
    | some p => (p.1, p.2.columns.map Prod.fst)
    | none => ([], [])

/-- `get_top_k`: on a `None` metadata argument, `.values()` raises
`AttributeError`; on an empty model `torch.stack([])` raises `RuntimeError`;
otherwise the preselection is computed and handed to `prune_top_k`. -/
def get_top_k (sim : Option LC → ℚ) (omd : Option Metadata) (k : ℕ) : Except String LC :=
  match omd with
  | none => .error "AttributeError"
  | some md =>
    if md.length = 0 then .error "RuntimeError"
    else prune_top_k sim (topKResults sim md k) md

instance : Inhabited CInfo := ⟨⟨[], none⟩⟩

instance : Inhabited TInfo := ⟨⟨[], [], []⟩⟩

/- ------------------------------------------------------------------ -/
/- Association-list helper lemmas.                                     -/
/- ------------------------------------------------------------------ -/

theorem mem_keys_unique {α β : Type} {l : List (α × β)} (h : (l.map Prod.fst).Nodup)
    {k : α} {a b : β} (ha : (k, a) ∈ l) (hb : (k, b) ∈ l) : a = b := by
  induction l with
  | nil => cases ha
  | cons p r ih =>
    rw [List.map_cons, List.nodup_cons] at h
    rcases List.mem_cons.1 ha with ha' | ha' <;> rcases List.mem_cons.1 hb with hb' | hb'
    · exact congrArg Prod.snd (ha'.trans hb'.symm)
    · exact absurd (List.mem_map.2 ⟨(k, b), hb', show k = p.1 from congrArg Prod.fst ha'⟩) h.1
    · exact absurd (List.mem_map.2 ⟨(k, a), ha', show k = p.1 from congrArg Prod.fst hb'⟩) h.1
    · exact ih h.2 ha' hb'

/- ------------------------------------------------------------------ -/
/- Membership characterisations for the pruning step.                  -/
/- ------------------------------------------------------------------ -/

theorem mem_pruneColumns {sim : Option LC → ℚ} {t : ℚ} {cols : List (LC × CInfo)} {cn : LC} :
    cn ∈ pruneColumns sim t cols ↔ ∃ ci, (cn, ci) ∈ cols ∧ t < sim ci.comment := by
  induction cols with
  | nil => simp [pruneColumns]
  | cons q r ih =>
    by_cases hq : sim q.2.comment > t
    · rw [pruneColumns, if_pos hq]
      constructor
      · intro h
        rcases List.mem_cons.1 h with h' | h'
        · exact ⟨q.2, by rw [h']; exact List.mem_cons_self _ _, hq⟩
        · obtain ⟨ci, h1, h2⟩ := ih.1 h'
          exact ⟨ci, List.mem_cons_of_mem _ h1, h2⟩
      · rintro ⟨ci, hci, hlt⟩
        rcases List.mem_cons.1 hci with h' | h'
        · exact List.mem_cons.2 (Or.inl (congrArg Prod.fst h'))
        · exact List.mem_cons.2 (Or.inr (ih.2 ⟨ci, h', hlt⟩))
    · rw [pruneColumns, if_neg hq]
      rw [ih]
      constructor
      · rintro ⟨ci, h1, h2⟩
        exact ⟨ci, List.mem_cons_of_mem _ h1, h2⟩
      · rintro ⟨ci, hci, hlt⟩
        rcases List.mem_cons.1 hci with h' | h'
        · have hc2 : ci = q.2 := congrArg Prod.snd h'
          rw [hc2] at hlt
          exact absurd hlt hq
        · exact ⟨ci, h', hlt⟩

theorem mem_prunedAux {sim : Option LC → ℚ} {t : ℚ} {md : Metadata} {tn : LC} {cols : List LC} :
    (tn, cols) ∈ prunedAux sim t md →
      ∃ ti, (tn, ti) ∈ md ∧ t < sim (some ti.comment) ∧
        cols = pruneColumns sim t ti.columns ∧ cols ≠ [] := by
  induction md with
  | nil => intro h; cases h
  | cons p r ih =>
    intro h
    by_cases hp : sim (some p.2.comment) > t
    · by_cases hpc : pruneColumns sim t p.2.columns = []
      · rw [prunedAux, if_pos hp, if_pos hpc] at h
        obtain ⟨ti, h1, h2, h3, h4⟩ := ih h
        exact ⟨ti, List.mem_cons_of_mem _ h1, h2, h3, h4⟩
      · rw [prunedAux, if_pos hp, if_neg hpc] at h
        rcases List.mem_cons.1 h with h' | h'
        · have h1 : tn = p.1 := congrArg Prod.fst h'
          have h2 : cols = pruneColumns sim t p.2.columns := congrArg Prod.snd h'
          exact ⟨p.2, by rw [h1]; exact List.mem_cons_self _ _, hp, h2, by rw [h2]; exact hpc⟩
        · obtain ⟨ti, h1, h2, h3, h4⟩ := ih h'
          exact ⟨ti, List.mem_cons_of_mem _ h1, h2, h3, h4⟩
    · rw [prunedAux, if_neg hp] at h
      obtain ⟨ti, h1, h2, h3, h4⟩ := ih h
      exact ⟨ti, List.mem_cons_of_mem _ h1, h2, h3, h4⟩

/- ------------------------------------------------------------------ -/
/- Claim C7: empty metadata model in prune_top_k.                      -/
/- ------------------------------------------------------------------ -/

/-- C7: the claim says the pruner guards the undefined mean for an empty
schema and yields "no relevant context"; the code has no such guard — on an
empty metadata model `sum(all_sim) / len(all_sim)` divides by zero and the
pruner raises `ZeroDivisionError` instead of returning an empty result. -/
theorem claim_C7 (sim : Option LC → ℚ) (results : PR) :
    prune_top_k sim results [] = Except.error "ZeroDivisionError" := rfl

/- ------------------------------------------------------------------ -/
/- Claim C9: the top-k preselection is dead.                           -/
/- ------------------------------------------------------------------ -/

/-- C9: `get_top_k` returns the identical result for any two values of the
top-k parameter, because `prune_top_k` never reads its preselected-results
argument and recomputes the selection from the full metadata model. -/
theorem claim_C9 (sim : Option LC → ℚ) (omd : Option Metadata) (k₁ k₂ : ℕ) :
    get_top_k sim omd k₁ = get_top_k sim omd k₂ ∧
      ∀ md r₁ r₂, prune_top_k sim r₁ md = prune_top_k sim r₂ md := by
  refine ⟨?_, fun md r₁ r₂ => rfl⟩
  cases omd with
  | none => rfl
  | some md => rfl

/- ------------------------------------------------------------------ -/
/- Claim C1: threshold value and strict selection.                     -/
/- ------------------------------------------------------------------ -/

/-- C1: for every non-empty metadata model (similarities abstracted into
`sim`), the acceptance threshold is the pooled mean lowered by 5% of itself;
a table or column is selected only when its own similarity is strictly greater
than the threshold, and a similarity exactly equal to the threshold is
excluded. -/
theorem claim_C1 (sim : Option LC → ℚ) (md : Metadata) (hne : md ≠ [])
    (hnd : (md.map Prod.fst).Nodup)
    (hndc : ∀ p ∈ md, (p.2.columns.map Prod.fst).Nodup) :
    threshold sim md = meanSim sim md - meanSim sim md * (5 / 100)
    ∧ (∀ tn cols, (tn, cols) ∈ prunedResults sim md →
        ∃ ti, (tn, ti) ∈ md ∧ threshold sim md < sim (some ti.comment)
          ∧ ∀ cn ∈ cols, ∃ ci, (cn, ci) ∈ ti.columns ∧ threshold sim md < sim ci.comment)
    ∧ (∀ tn ti, (tn, ti) ∈ md → sim (some ti.comment) = threshold sim md →
        ∀ cols, (tn, cols) ∉ prunedResults sim md)
    ∧ (∀ tn ti cn ci cols, (tn, ti) ∈ md → (cn, ci) ∈ ti.columns →
        sim ci.comment = threshold sim md → (tn, cols) ∈ prunedResults sim md →
        cn ∉ cols) := by
  refine ⟨rfl, ?_, ?_, ?_⟩
  · intro tn cols h
    have h' : (tn, cols) ∈ prunedAux sim (threshold sim md) md := h
    obtain ⟨ti, h1, h2, h3, h4⟩ := mem_prunedAux h'
    refine ⟨ti, h1, h2, ?_⟩
    intro cn hcn
    rw [h3] at hcn
    exact mem_pruneColumns.1 hcn
  · intro tn ti hmem heq cols h
    have h' : (tn, cols) ∈ prunedAux sim (threshold sim md) md := h
    obtain ⟨ti', h1, h2, _, _⟩ := mem_prunedAux h'
    rw [mem_keys_unique hnd h1 hmem, heq] at h2
    exact lt_irrefl _ h2
  · intro tn ti cn ci cols hmem hcmem heq hpr hcn
    have h' : (tn, cols) ∈ prunedAux sim (threshold sim md) md := hpr
    obtain ⟨ti', h1, _, h3, _⟩ := mem_prunedAux h'
    rw [mem_keys_unique hnd h1 hmem] at h3
    rw [h3] at hcn
    obtain ⟨ci', hc1, hc2⟩ := mem_pruneColumns.1 hcn
    rw [mem_keys_unique (hndc (tn, ti) hmem) hc1 hcmem, heq] at hc2
    exact lt_irrefl _ hc2

def simW : Option LC → ℚ
  | _ => 1

def mdW : Metadata := [(['A'], ⟨['a'], [(['x'], ⟨['I'], some ['u']⟩)], []⟩)]

/-- Witness for C1 at a concrete one-table model. -/
theorem claim_C1_witness :
    mdW ≠ [] ∧
      threshold simW mdW = meanSim simW mdW - meanSim simW mdW * (5 / 100) :=
  ⟨by decide, (claim_C1 simW mdW (by decide) (by decide) (by decide)).1⟩

/- ------------------------------------------------------------------ -/
/- Claim C5: uniform shift of all similarity scores.                   -/
/- ------------------------------------------------------------------ -/

theorem colSims_shift (sim : Option LC → ℚ) (c : ℚ) (cols : List (LC × CInfo)) :
    colSims (fun x => sim x + c) cols = (colSims sim cols).map (· + c) := by
  induction cols with
  | nil => rfl
  | cons q r ih => simp [colSims, ih]

theorem allSims_shift (sim : Option LC → ℚ) (c : ℚ) (md : Metadata) :
    allSims (fun x => sim x + c) md = (allSims sim md).map (· + c) := by
  induction md with
  | nil => rfl
  | cons p r ih => simp [allSims, ih, colSims_shift]

theorem sum_map_addc (l : List ℚ) (c : ℚ) :
    (l.map (· + c)).sum = l.sum + l.length * c := by
  induction l with
  | nil => simp
  | cons x r ih =>
    simp only [List.map_cons, List.sum_cons, ih, List.length_cons]
    push_cast
    ring

theorem allSims_ne_nil (sim : Option LC → ℚ) {md : Metadata} (h : md ≠ []) :
    allSims sim md ≠ [] := by
  cases md with
  | nil => exact absurd rfl h
  | cons p r => simp [allSims]

theorem meanSim_shift (sim : Option LC → ℚ) (c : ℚ) {md : Metadata} (h : md ≠ []) :
    meanSim (fun x => sim x + c) md = meanSim sim md + c := by
  have hne := allSims_ne_nil sim h
  have hl0 : (allSims sim md).length ≠ 0 := fun h0 => hne (List.length_eq_zero.1 h0)
  have hl : ((allSims sim md).length : ℚ) ≠ 0 := Nat.cast_ne_zero.mpr hl0
  rw [meanSim, meanSim, allSims_shift, sum_map_addc, List.length_map]
  field_simp
  ring

theorem threshold_shift (sim : Option LC → ℚ) (c : ℚ) {md : Metadata} (h : md ≠ []) :
    threshold (fun x => sim x + c) md = threshold sim md + c * (19 / 20) := by
  rw [threshold, threshold, meanSim_shift sim c h]
  ring

theorem shift_keeps {s t c : ℚ} (hc : 0 ≤ c) (h : t < s) :
    t + c * (19 / 20) < s + c := by linarith

theorem pruneColumns_shift_mem {sim : Option LC → ℚ} {t c : ℚ} (hc : 0 ≤ c)
    {cols : List (LC × CInfo)} {cn : LC} (h : cn ∈ pruneColumns sim t cols) :
    cn ∈ pruneColumns (fun x => sim x + c) (t + c * (19 / 20)) cols := by
  obtain ⟨ci, h1, h2⟩ := mem_pruneColumns.1 h
  exact mem_pruneColumns.2 ⟨ci, h1, shift_keeps hc h2⟩

theorem prunedAux_shift {sim : Option LC → ℚ} {t c : ℚ} (hc : 0 ≤ c) {md : Metadata}
    {tn : LC} {cols : List LC} (h : (tn, cols) ∈ prunedAux sim t md) :
    ∃ cols', (tn, cols') ∈ prunedAux (fun x => sim x + c) (t + c * (19 / 20)) md ∧
      ∀ x ∈ cols, x ∈ cols' := by
  induction md with
  | nil => cases h
  | cons p r ih =>
    by_cases hp : sim (some p.2.comment) > t
    · have hp' : sim (some p.2.comment) + c > t + c * (19 / 20) := shift_keeps hc hp
      by_cases hpc : pruneColumns sim t p.2.columns = []
      · rw [prunedAux, if_pos hp, if_pos hpc] at h
        obtain ⟨cols', hmem, hsub⟩ := ih h
        refine ⟨cols', ?_, hsub⟩
        rw [prunedAux, if_pos hp']
        by_cases hpc' : pruneColumns (fun x => sim x + c) (t + c * (19 / 20)) p.2.columns = []
        · rw [if_pos hpc']; exact hmem
        · rw [if_neg hpc']; exact List.mem_cons_of_mem _ hmem
      · rw [prunedAux, if_pos hp, if_neg hpc] at h
        have hne' : pruneColumns (fun x => sim x + c) (t + c * (19 / 20)) p.2.columns ≠ [] := by
          obtain ⟨x, hx⟩ := List.exists_mem_of_ne_nil _ hpc
          exact List.ne_nil_of_mem (pruneColumns_shift_mem hc hx)
        rcases List.mem_cons.1 h with h' | h'
        · have h1 : tn = p.1 := congrArg Prod.fst h'
          have h2 : cols = pruneColumns sim t p.2.columns := congrArg Prod.snd h'
          refine ⟨pruneColumns (fun x => sim x + c) (t + c * (19 / 20)) p.2.columns, ?_, ?_⟩
          · rw [prunedAux, if_pos hp', if_neg hne', h1]
            exact List.mem_cons_self _ _
          · intro x hx
            rw [h2] at hx
            exact pruneColumns_shift_mem hc hx
        · obtain ⟨cols', hmem, hsub⟩ := ih h'
          refine ⟨cols', ?_, hsub⟩
          rw [prunedAux, if_pos hp', if_neg hne']
          exact List.mem_cons_of_mem _ hmem
    · rw [prunedAux, if_neg hp] at h
      obtain ⟨cols', hmem, hsub⟩ := ih h
      refine ⟨cols', ?_, hsub⟩
      by_cases hp' : sim (some p.2.comment) + c > t + c * (19 / 20)
      · rw [prunedAux, if_pos hp']
        by_cases hpc' : pruneColumns (fun x => sim x + c) (t + c * (19 / 20)) p.2.columns = []
        · rw [if_pos hpc']; exact hmem
        · rw [if_neg hpc']; exact List.mem_cons_of_mem _ hmem
      · rw [prunedAux, if_neg hp']
        exact hmem

/-- C5: raising every similarity uniformly by `c ≥ 0` never removes a
previously retained table or column — the threshold shifts by `19/20 · c`
while scores shift by `c`, so strict selection is preserved. -/
theorem claim_C5 (sim : Option LC → ℚ) (md : Metadata) (c : ℚ) (hc : 0 ≤ c)
    (hne : md ≠ []) :
    ∀ tn cols, (tn, cols) ∈ prunedResults sim md →
      ∃ cols', (tn, cols') ∈ prunedResults (fun x => sim x + c) md ∧
        ∀ x ∈ cols, x ∈ cols' := by
  intro tn cols h
  have h' : (tn, cols) ∈ prunedAux sim (threshold sim md) md := h
  obtain ⟨cols', hmem, hsub⟩ := prunedAux_shift hc h'
  refine ⟨cols', ?_, hsub⟩
  have hrw : prunedResults (fun x => sim x + c) md
      = prunedAux (fun x => sim x + c) (threshold sim md + c * (19 / 20)) md := by
    rw [prunedResults, threshold_shift sim c hne]
  rw [hrw]
  exact hmem

/-- Witness for C5 at a concrete model and shift 1. -/
theorem claim_C5_witness :
    (0 : ℚ) ≤ 1 ∧ mdW ≠ [] ∧
      ∀ tn cols, (tn, cols) ∈ prunedResults simW mdW →
        ∃ cols', (tn, cols') ∈ prunedResults (fun x => simW x + 1) mdW ∧
          ∀ x ∈ cols, x ∈ cols' :=
  ⟨by norm_num, by decide, claim_C5 simW mdW 1 (by norm_num) (by decide)⟩

/- ------------------------------------------------------------------ -/
/- Claim C2: columns whose parsed comment is null.                     -/
/- ------------------------------------------------------------------ -/

theorem colSim_mem_colSims {sim : Option LC → ℚ} {cols : List (LC × CInfo)}
    {cn : LC} {ci : CInfo} (h : (cn, ci) ∈ cols) :
    sim ci.comment ∈ colSims sim cols := by
  induction cols with
  | nil => cases h
  | cons q r ih =>
    rcases List.mem_cons.1 h with h' | h'
    · have hc : ci = q.2 := congrArg Prod.snd h'
      rw [colSims, hc]
      exact List.mem_cons_self _ _
    · rw [colSims]
      exact List.mem_cons_of_mem _ (ih h')

theorem sim_mem_allSims {sim : Option LC → ℚ} {md : Metadata} {tn : LC} {ti : TInfo}
    {cn : LC} {ci : CInfo} (hmem : (tn, ti) ∈ md) (hc : (cn, ci) ∈ ti.columns) :
    sim ci.comment ∈ allSims sim md := by
  induction md with
  | nil => cases hmem
  | cons p r ih =>
    rcases List.mem_cons.1 hmem with h' | h'
    · have ht : ti = p.2 := congrArg Prod.snd h'
      rw [ht] at hc
      rw [allSims]
      exact List.mem_cons_of_mem _ (List.mem_append_left _ (colSim_mem_colSims hc))
    · rw [allSims]
      exact List.mem_cons_of_mem _ (List.mem_append_right _ (ih h'))

/-- C2 (amended): a column whose parsed comment is null is still scored — the
null comment itself (not the empty string) is passed to the similarity
function — and it is selected by the same strict-threshold rule as any other
column, not excluded a priori. -/
theorem claim_C2 (sim : Option LC → ℚ) (md : Metadata) (tn : LC) (ti : TInfo)
    (cn : LC) (ci : CInfo) (hmem : (tn, ti) ∈ md) (hc : (cn, ci) ∈ ti.columns)
    (hnone : ci.comment = none) (hndc : (ti.columns.map Prod.fst).Nodup) :
    sim none ∈ allSims sim md ∧
      (cn ∈ pruneColumns sim (threshold sim md) ti.columns ↔
        threshold sim md < sim none) := by
  constructor
  · have h := @sim_mem_allSims sim md tn ti cn ci hmem hc
    rw [hnone] at h
    exact h
  · constructor
    · intro h
      obtain ⟨ci', h1, h2⟩ := mem_pruneColumns.1 h
      rw [mem_keys_unique hndc h1 hc, hnone] at h2
      exact h2
    · intro h
      exact mem_pruneColumns.2 ⟨ci, hc, by rw [hnone]; exact h⟩

/-- The pruning step as the spec's words describe the null-comment case:
a column lacking a comment is treated as having an empty-string description.
Defined only for comparison with `prunedResults`, which follows the code and
passes the null comment itself to the encoder. -/
def nullAsEmpty (md : Metadata) : Metadata :=
  md.map fun p =>
    (p.1, ⟨p.2.comment,
           p.2.columns.map fun q => (q.1, ⟨q.2.ty, some (q.2.comment.getD [])⟩),
           p.2.constraints⟩)

def simX : Option LC → ℚ
  | none => 1
  | some s => if s = ['t'] then 1 else 0

def mdX : Metadata := [(['T'], ⟨['t'], [(['c'], ⟨['I'], none⟩)], []⟩)]

/-- C2 counterexample: with an encoder whose similarity at the null comment
differs from its similarity at the empty string, the code's selection differs
from the spec's empty-string-substitution reading, so the pruner does not
treat a missing comment as the empty string. -/
theorem claim_C2_counterexample :
    prunedResults simX mdX ≠ prunedResults simX (nullAsEmpty mdX) := by
  norm_num [prunedResults, prunedAux, pruneColumns, threshold, meanSim, allSims,
    colSims, nullAsEmpty, mdX, simX]

/-- Witness for C2 at a concrete model with a null-comment column. -/
theorem claim_C2_witness :
    simX none ∈ allSims simX mdX ∧
      (['c'] ∈ pruneColumns simX (threshold simX mdX) [(['c'], ⟨['I'], none⟩)] ↔
        threshold simX mdX < simX none) :=
  claim_C2 simX mdX ['T'] ⟨['t'], [(['c'], ⟨['I'], none⟩)], []⟩ ['c'] ⟨['I'], none⟩
    (by decide) (by decide) rfl (by decide)

/- ------------------------------------------------------------------ -/
/- Key-injection bookkeeping lemmas (claims C3 and C4).                -/
/- ------------------------------------------------------------------ -/

theorem updV_keys (st : PR) (k : LC) (f : List LC → List LC) :
    (updV st k f).map Prod.fst = st.map Prod.fst := by
  induction st with
  | nil => rfl
  | cons q r ih =>
    obtain ⟨k', v⟩ := q
    rw [updV]
    by_cases h : k' = k
    · rw [if_pos h, List.map_cons, List.map_cons]
    · rw [if_neg h, List.map_cons, List.map_cons, ih]

theorem updV_length (st : PR) (k : LC) (f : List LC → List LC) :
    (updV st k f).length = st.length := by
  have h := congrArg List.length (updV_keys st k f)
  simpa using h

theorem lookupV_updV_self (st : PR) (k : LC) (f : List LC → List LC) :
    lookupV k (updV st k f) = (lookupV k st).map f := by
  induction st with
  | nil => rfl
  | cons q r ih =>
    obtain ⟨k', v⟩ := q
    rw [updV]
    by_cases h : k' = k
    · rw [if_pos h, lookupV, lookupV, if_pos h, if_pos h]
      rfl
    · rw [if_neg h, lookupV, lookupV, if_neg h, if_neg h, ih]

theorem lookupV_updV_ne (st : PR) {k k' : LC} (h : k ≠ k') (f : List LC → List LC) :
    lookupV k (updV st k' f) = lookupV k st := by
  induction st with
  | nil => rfl
  | cons q r ih =>
    obtain ⟨k0, v⟩ := q
    rw [updV]
    by_cases h0 : k0 = k'
    · have hne : ¬(k0 = k) := fun hh => h ((hh.symm).trans h0)
      rw [if_pos h0, lookupV, lookupV, if_neg hne, if_neg hne]
    · rw [if_neg h0, lookupV, lookupV, ih]

theorem lookupV_mem_keys {st : PR} {k : LC} (h : k ∈ st.map Prod.fst) :
    ∃ v, lookupV k st = some v := by
  induction st with
  | nil => cases h
  | cons q r ih =>
    obtain ⟨k', v⟩ := q
    by_cases h0 : k' = k
    · exact ⟨v, by rw [lookupV, if_pos h0]⟩
    · have hr : k ∈ r.map Prod.fst := by
        rcases List.mem_cons.1 h with h' | h'
        · exact absurd h'.symm h0
        · exact h'
      obtain ⟨v', hv⟩ := ih hr
      exact ⟨v', by rw [lookupV, if_neg h0]; exact hv⟩

theorem lookupV_some_mem {st : PR} {k : LC} {v : List LC} (h : lookupV k st = some v) :
    (k, v) ∈ st := by
  induction st with
  | nil => cases h
  | cons q r ih =>
    obtain ⟨k', w⟩ := q
    rw [lookupV] at h
    by_cases h0 : k' = k
    · rw [if_pos h0] at h
      have hw : w = v := Option.some.inj h
      rw [← h0, ← hw]
      exact List.mem_cons_self _ _
    · rw [if_neg h0] at h
      exact List.mem_cons_of_mem _ (ih h)

/-- `st` grows to `st'` when every stored list is extended only by prepending. -/
def GrowsTo (st st' : PR) : Prop :=
  ∀ k v, lookupV k st = some v → ∃ p, lookupV k st' = some (p ++ v)

theorem growsTo_refl (st : PR) : GrowsTo st st :=
  fun k v h => ⟨[], by rw [List.nil_append]; exact h⟩

theorem growsTo_trans {s1 s2 s3 : PR} (h1 : GrowsTo s1 s2) (h2 : GrowsTo s2 s3) :
    GrowsTo s1 s3 := by
  intro k v h
  obtain ⟨p, hp⟩ := h1 k v h
  obtain ⟨q, hq⟩ := h2 k _ hp
  exact ⟨q ++ p, by rw [List.append_assoc]; exact hq⟩

theorem growsTo_updV (st : PR) (k' : LC) (cols : List LC) :
    GrowsTo st (updV st k' (fun v => cols ++ v)) := by
  intro k v h
  by_cases h0 : k = k'
  · subst h0
    refine ⟨cols, ?_⟩
    rw [lookupV_updV_self, h]
    rfl
  · exact ⟨[], by rw [lookupV_updV_ne st h0, List.nil_append]; exact h⟩

theorem growsTo_applyItem (tn : LC) (st : PR) (item : LC × List LC) :
    GrowsTo st (applyItem tn st item) := by
  simp only [applyItem]
  by_cases hc : item.1 ≠ tn ∧ item.1 ∈ (updV st tn (fun v => item.2 ++ v)).map Prod.fst
  · rw [if_pos hc]
    exact growsTo_trans (growsTo_updV st tn item.2) (growsTo_updV _ item.1 item.2)
  · rw [if_neg hc]
    exact growsTo_updV st tn item.2

theorem growsTo_foldl_applyItem (tn : LC) (items : List (LC × List LC)) :
    ∀ st, GrowsTo st (items.foldl (applyItem tn) st) := by
  induction items with
  | nil => intro st; exact growsTo_refl st
  | cons it rest ih =>
    intro st
    rw [List.foldl_cons]
    exact growsTo_trans (growsTo_applyItem tn st it) (ih _)

theorem growsTo_injectStep (keys0 : List LC) (st : PR) (p : LC × TInfo) :
    GrowsTo st (injectStep keys0 st p) := by
  rw [injectStep]
  by_cases hc : p.1 ∈ st.map Prod.fst
  · rw [if_pos hc]
    exact growsTo_foldl_applyItem _ _ st
  · rw [if_neg hc]
    exact growsTo_refl st

theorem growsTo_foldl_injectStep (keys0 : List LC) (md : Metadata) :
    ∀ st, GrowsTo st (md.foldl (injectStep keys0) st) := by
  induction md with
  | nil => intro st; exact growsTo_refl st
  | cons p r ih =>
    intro st
    rw [List.foldl_cons]
    exact growsTo_trans (growsTo_injectStep keys0 st p) (ih _)

theorem applyItem_keys (tn : LC) (st : PR) (item : LC × List LC) :
    (applyItem tn st item).map Prod.fst = st.map Prod.fst := by
  simp only [applyItem]
  by_cases hc : item.1 ≠ tn ∧ item.1 ∈ (updV st tn (fun v => item.2 ++ v)).map Prod.fst
  · rw [if_pos hc, updV_keys, updV_keys]
  · rw [if_neg hc, updV_keys]

theorem foldl_applyItem_keys (tn : LC) (items : List (LC × List LC)) :
    ∀ st : PR, (items.foldl (applyItem tn) st).map Prod.fst = st.map Prod.fst := by
  induction items with
  | nil => intro st; rfl
  | cons it rest ih =>
    intro st
    rw [List.foldl_cons, ih, applyItem_keys]

theorem injectStep_keys (keys0 : List LC) (st : PR) (p : LC × TInfo) :
    (injectStep keys0 st p).map Prod.fst = st.map Prod.fst := by
  rw [injectStep]
  by_cases hc : p.1 ∈ st.map Prod.fst
  · rw [if_pos hc, foldl_applyItem_keys]
  · rw [if_neg hc]

theorem foldl_injectStep_keys (keys0 : List LC) (md : Metadata) :
    ∀ st : PR, (md.foldl (injectStep keys0) st).map Prod.fst = st.map Prod.fst := by
  induction md with
  | nil => intro st; rfl
  | cons p r ih =>
    intro st
    rw [List.foldl_cons, ih, injectStep_keys]

theorem injectKeys_keys (md : Metadata) (pruned : PR) :
    (injectKeys md pruned).map Prod.fst = pruned.map Prod.fst := by
  rw [injectKeys, foldl_injectStep_keys]

theorem lookupV_dictAppend_self (d : PR) (k : LC) (v : LC) :
    lookupV k (dictAppend d k v) = some ((lookupV k d).getD [] ++ [v]) := by
  induction d with
  | nil => simp [dictAppend, lookupV]
  | cons q r ih =>
    obtain ⟨k', vs⟩ := q
    by_cases h0 : k' = k
    · simp [dictAppend, lookupV, h0]
    · simp [dictAppend, lookupV, h0, ih]

theorem lookupV_dictAppend_ne (d : PR) {k k' : LC} (h : k ≠ k') (v : LC) :
    lookupV k (dictAppend d k' v) = lookupV k d := by
  induction d with
  | nil => simp [dictAppend, lookupV, Ne.symm h]
  | cons q r ih =>
    obtain ⟨k0, vs⟩ := q
    by_cases h0 : k0 = k'
    · have hne : ¬(k0 = k) := fun hh => h (hh.symm.trans h0)
      simp [dictAppend, lookupV, h0, hne, Ne.symm h]
    · by_cases h1 : k0 = k
      · simp [dictAppend, lookupV, h0, h1, h]
      · simp [dictAppend, lookupV, h0, h1, ih]

theorem extractStep_mono (referenced : List LC) (d : PR) (c : LC) {k : LC} {L : List LC}
    (h : lookupV k d = some L) :
    ∃ L', lookupV k (extractStep referenced d c) = some L' ∧ ∀ x ∈ L, x ∈ L' := by
  cases hfk : fkSearch c with
  | none =>
    simp only [extractStep, hfk]
    exact ⟨L, h, fun x hx => hx⟩
  | some m =>
    obtain ⟨col, ref⟩ := m
    simp only [extractStep, hfk]
    by_cases hr : ref ∈ referenced
    · rw [if_pos hr]
      by_cases hk : k = ref
      · subst hk
        refine ⟨L ++ [pyStrip col], ?_, fun x hx => List.mem_append_left _ hx⟩
        rw [lookupV_dictAppend_self, h]
        rfl
      · rw [lookupV_dictAppend_ne _ hk]
        exact ⟨L, h, fun x hx => hx⟩
    · rw [if_neg hr]
      exact ⟨L, h, fun x hx => hx⟩

theorem foldl_extractStep_mono (referenced : List LC) (cs : List LC) :
    ∀ d {k : LC} {L : List LC}, lookupV k d = some L →
      ∃ L', lookupV k (cs.foldl (extractStep referenced) d) = some L' ∧
        ∀ x ∈ L, x ∈ L' := by
  induction cs with
  | nil =>
    intro d k L h
    exact ⟨L, h, fun x hx => hx⟩
  | cons c rest ih =>
    intro d k L h
    rw [List.foldl_cons]
    obtain ⟨L1, h1, hs1⟩ := extractStep_mono referenced d c h
    obtain ⟨L2, h2, hs2⟩ := ih _ h1
    exact ⟨L2, h2, fun x hx => hs2 x (hs1 x hx)⟩

theorem extract_hit (referenced : List LC) {cst colRaw ref : LC}
    (h2 : fkSearch cst = some (colRaw, ref)) (h3 : ref ∈ referenced) :
    ∀ (cs : List LC) (d : PR), cst ∈ cs →
      ∃ L, lookupV ref (cs.foldl (extractStep referenced) d) = some L ∧
        pyStrip colRaw ∈ L := by
  intro cs
  induction cs with
  | nil => intro d h; cases h
  | cons c rest ih =>
    intro d h1
    rw [List.foldl_cons]
    rcases List.mem_cons.1 h1 with h' | h'
    · subst h'
      have hstep : extractStep referenced d cst = dictAppend d ref (pyStrip colRaw) := by
        simp only [extractStep, h2]
        rw [if_pos h3]
      rw [hstep]
      obtain ⟨L', hL', hs⟩ := foldl_extractStep_mono referenced rest
        (dictAppend d ref (pyStrip colRaw)) (lookupV_dictAppend_self d ref (pyStrip colRaw))
      exact ⟨L', hL', hs _ (List.mem_append_right _ (List.mem_singleton.2 rfl))⟩
    · exact ih _ h'

theorem applyItem_lookup_tn (tn : LC) (st : PR) (item : LC × List LC) :
    lookupV tn (applyItem tn st item) = (lookupV tn st).map (fun v => item.2 ++ v) := by
  simp only [applyItem]
  by_cases hc : item.1 ≠ tn ∧ item.1 ∈ (updV st tn (fun v => item.2 ++ v)).map Prod.fst
  · rw [if_pos hc, lookupV_updV_ne _ (fun hh : tn = item.1 => hc.1 hh.symm),
      lookupV_updV_self]
  · rw [if_neg hc, lookupV_updV_self]

theorem applyItem_lookup_ref (tn : LC) (st : PR) (item : LC × List LC)
    (hne : item.1 ≠ tn) (href : item.1 ∈ st.map Prod.fst) :
    lookupV item.1 (applyItem tn st item)
      = (lookupV item.1 st).map (fun v => item.2 ++ v) := by
  simp only [applyItem]
  have hmem : item.1 ∈ (updV st tn (fun v => item.2 ++ v)).map Prod.fst := by
    rw [updV_keys]
    exact href
  rw [if_pos ⟨hne, hmem⟩, lookupV_updV_self, lookupV_updV_ne _ hne]

theorem mem_lookup_foldl_applyItem (tn : LC) (items : List (LC × List LC)) :
    ∀ (st : PR) (ref : LC) (L : List LC) (v : LC), tn ∈ st.map Prod.fst →
      (ref, L) ∈ items → v ∈ L → ref ∈ st.map Prod.fst →
      (∃ w, lookupV tn (items.foldl (applyItem tn) st) = some w ∧ v ∈ w) ∧
      (ref ≠ tn → ∃ w, lookupV ref (items.foldl (applyItem tn) st) = some w ∧ v ∈ w) := by
  induction items with
  | nil => intro st ref L v htn hit hv href; cases hit
  | cons it rest ih =>
    intro st ref L v htn hit hv href
    rw [List.foldl_cons]
    rcases List.mem_cons.1 hit with h' | h'
    · have hr1 : ref = it.1 := congrArg Prod.fst h'
      have hL2 : L = it.2 := congrArg Prod.snd h'
      constructor
      · obtain ⟨w0, hw0⟩ := lookupV_mem_keys htn
        have h1 : lookupV tn (applyItem tn st it) = some (it.2 ++ w0) := by
          rw [applyItem_lookup_tn, hw0]
          rfl
        obtain ⟨p, hp⟩ := growsTo_foldl_applyItem tn rest (applyItem tn st it) tn _ h1
        refine ⟨p ++ (it.2 ++ w0), hp, ?_⟩
        exact List.mem_append_right _ (List.mem_append_left _ (hL2 ▸ hv))
      · intro hrefne
        obtain ⟨u0, hu0⟩ := lookupV_mem_keys href
        have hne' : it.1 ≠ tn := hr1 ▸ hrefne
        have href' : it.1 ∈ st.map Prod.fst := hr1 ▸ href
        have h1 : lookupV ref (applyItem tn st it) = some (it.2 ++ u0) := by
          rw [hr1]
          rw [applyItem_lookup_ref tn st it hne' href', ← hr1, hu0]
          rfl
        obtain ⟨p, hp⟩ := growsTo_foldl_applyItem tn rest (applyItem tn st it) ref _ h1
        refine ⟨p ++ (it.2 ++ u0), hp, ?_⟩
        exact List.mem_append_right _ (List.mem_append_left _ (hL2 ▸ hv))
    · have htn' : tn ∈ (applyItem tn st it).map Prod.fst := by
        rw [applyItem_keys]
        exact htn
      have href' : ref ∈ (applyItem tn st it).map Prod.fst := by
        rw [applyItem_keys]
        exact href
      exact ih _ ref L v htn' h' hv href'

theorem mem_lookup_foldl_injectStep (keys0 : List LC) (md : Metadata)
    {tn : LC} {ti : TInfo} {cst colRaw ref : LC}
    (hfk : fkSearch cst = some (colRaw, ref)) (href0 : ref ∈ keys0) :
    ∀ st : PR, (tn, ti) ∈ md → cst ∈ ti.constraints →
      tn ∈ st.map Prod.fst → ref ∈ st.map Prod.fst →
      (∃ w, lookupV tn (md.foldl (injectStep keys0) st) = some w ∧ pyStrip colRaw ∈ w) ∧
      (ref ≠ tn →
        ∃ w, lookupV ref (md.foldl (injectStep keys0) st) = some w ∧ pyStrip colRaw ∈ w) := by
  induction md with
  | nil => intro st hmd hcst htn href; cases hmd
  | cons p r ih =>
    intro st hmd hcst htn href
    rw [List.foldl_cons]
    rcases List.mem_cons.1 hmd with h' | h'
    · have hp1 : tn = p.1 := congrArg Prod.fst h'
      have hp2 : ti = p.2 := congrArg Prod.snd h'
      subst hp1
      subst hp2
      have hstep : injectStep keys0 st p
          = (extract_key_columns p.2.constraints keys0).foldl (applyItem p.1) st := by
        rw [injectStep, if_pos htn]
      obtain ⟨L, hL, hvL⟩ := extract_hit keys0 hfk href0 p.2.constraints [] hcst
      have hmemItem : (ref, L) ∈ extract_key_columns p.2.constraints keys0 :=
        lookupV_some_mem (by rw [extract_key_columns]; exact hL)
      have hmain := mem_lookup_foldl_applyItem p.1
        (extract_key_columns p.2.constraints keys0) st ref L (pyStrip colRaw)
        htn hmemItem hvL href
      rw [hstep]
      obtain ⟨hA, hB⟩ := hmain
      constructor
      · obtain ⟨w, hw, hvw⟩ := hA
        obtain ⟨q, hq⟩ := growsTo_foldl_injectStep keys0 r _ p.1 _ hw
        exact ⟨q ++ w, hq, List.mem_append_right _ hvw⟩
      · intro hne
        obtain ⟨w, hw, hvw⟩ := hB hne
        obtain ⟨q, hq⟩ := growsTo_foldl_injectStep keys0 r _ ref _ hw
        exact ⟨q ++ w, hq, List.mem_append_right _ hvw⟩
    · have htn' : tn ∈ (injectStep keys0 st p).map Prod.fst := by
        rw [injectStep_keys]
        exact htn
      have href' : ref ∈ (injectStep keys0 st p).map Prod.fst := by
        rw [injectStep_keys]
        exact href
      exact ih _ h' hcst htn' href'

theorem foldl_extractStep_nil (referenced : List LC) :
    ∀ (cs : List LC) (d : PR),
      (∀ cst ∈ cs, ∀ colRaw ref, fkSearch cst = some (colRaw, ref) → ref ∉ referenced) →
      cs.foldl (extractStep referenced) d = d := by
  intro cs
  induction cs with
  | nil => intro d h; rfl
  | cons c rest ih =>
    intro d h
    rw [List.foldl_cons]
    have hstep : extractStep referenced d c = d := by
      cases hfk : fkSearch c with
      | none => simp [extractStep, hfk]
      | some m =>
        obtain ⟨colRaw, ref⟩ := m
        have hout : ref ∉ referenced := h c (List.mem_cons_self _ _) colRaw ref hfk
        simp [extractStep, hfk, hout]
    rw [hstep]
    exact ih d (fun cst hc => h cst (List.mem_cons_of_mem _ hc))

theorem foldl_injectStep_id (keys0 : List LC) :
    ∀ (md : Metadata) (st : PR),
      (∀ tn ti, (tn, ti) ∈ md → ∀ cst ∈ ti.constraints, ∀ colRaw ref,
        fkSearch cst = some (colRaw, ref) → ref ∉ keys0) →
      md.foldl (injectStep keys0) st = st := by
  intro md
  induction md with
  | nil => intro st h; rfl
  | cons p r ih =>
    intro st hall
    rw [List.foldl_cons]
    have hext : extract_key_columns p.2.constraints keys0 = [] := by
      rw [extract_key_columns]
      exact foldl_extractStep_nil keys0 p.2.constraints []
        (fun cst hc colRaw ref hfk =>
          hall p.1 p.2 (List.mem_cons_self _ _) cst hc colRaw ref hfk)
    have hstep : injectStep keys0 st p = st := by
      rw [injectStep, hext]
      by_cases hc : p.1 ∈ st.map Prod.fst
      · rw [if_pos hc]
        rfl
      · rw [if_neg hc]
    rw [hstep]
    exact ih st (fun tn ti h => hall tn ti (List.mem_cons_of_mem _ h))

/-- C3: for a surviving table whose constraint list contains a foreign-key
declaration whose target also survived, the injector prepends the (stripped)
referencing column capture to the referencing table's list and, when the
referenced table is distinct, to its list as well; when no foreign key in the
schema targets a surviving table, the injector changes nothing. -/
theorem claim_C3 (md : Metadata) (pruned : PR) :
    (∀ tn ti cst colRaw ref, (tn, ti) ∈ md → tn ∈ pruned.map Prod.fst →
      cst ∈ ti.constraints → fkSearch cst = some (colRaw, ref) →
      ref ∈ pruned.map Prod.fst →
      (∃ w, lookupV tn (injectKeys md pruned) = some w ∧ pyStrip colRaw ∈ w) ∧
      (ref ≠ tn →
        ∃ w, lookupV ref (injectKeys md pruned) = some w ∧ pyStrip colRaw ∈ w))
    ∧ ((∀ tn ti, (tn, ti) ∈ md → ∀ cst ∈ ti.constraints, ∀ colRaw ref,
        fkSearch cst = some (colRaw, ref) → ref ∉ pruned.map Prod.fst) →
      injectKeys md pruned = pruned) := by
  constructor
  · intro tn ti cst colRaw ref hmd htn hcst hfk href
    exact mem_lookup_foldl_injectStep (pruned.map Prod.fst) md hfk href pruned hmd hcst htn href
  · intro hall
    rw [injectKeys]
    exact foldl_injectStep_id (pruned.map Prod.fst) md pruned hall

def mdC3 : Metadata :=
  [(['A'], ⟨['a'], [(['x'], ⟨['I'], some ['u']⟩)], []⟩),
   (['B'], ⟨['b'], [(['y'], ⟨['I'], some ['v']⟩)],
     ["FOREIGN KEY (sid) REFERENCES A".toList]⟩)]

def prC3 : PR := [(['A'], [['x']]), (['B'], [['y']])]

/-- Witness for C3 on a two-table schema with one foreign key. -/
theorem claim_C3_witness :
    (∃ w, lookupV ['B'] (injectKeys mdC3 prC3) = some w ∧
        pyStrip ("sid".toList) ∈ w) ∧
      (['A'] ≠ ['B'] →
        ∃ w, lookupV ['A'] (injectKeys mdC3 prC3) = some w ∧
          pyStrip ("sid".toList) ∈ w) :=
  (claim_C3 mdC3 prC3).1 ['B']
    ⟨['b'], [(['y'], ⟨['I'], some ['v']⟩)], ["FOREIGN KEY (sid) REFERENCES A".toList]⟩
    ("FOREIGN KEY (sid) REFERENCES A".toList) ("sid".toList) ['A']
    (by decide) (by decide) (by decide) (by decide) (by decide)

/- ------------------------------------------------------------------ -/
/- Claim C4: the injector is not idempotent; each run prepends the     -/
/- same per-table key-column block once more.                          -/
/- ------------------------------------------------------------------ -/

/-- Append a per-position tail to each stored list. -/
def zipApp (st : PR) (tails : List (List LC)) : PR :=
  List.zipWith (fun p t => (p.1, p.2 ++ t)) st tails

theorem applyItem_length (tn : LC) (st : PR) (item : LC × List LC) :
    (applyItem tn st item).length = st.length := by
  have h := congrArg List.length (applyItem_keys tn st item)
  simpa using h

theorem injectStep_length (keys0 : List LC) (st : PR) (p : LC × TInfo) :
    (injectStep keys0 st p).length = st.length := by
  have h := congrArg List.length (injectStep_keys keys0 st p)
  simpa using h

theorem zipApp_keys : ∀ (st : PR) (tails : List (List LC)), tails.length = st.length →
    (zipApp st tails).map Prod.fst = st.map Prod.fst := by
  intro st
  induction st with
  | nil => intro tails h; rfl
  | cons p r ih =>
    intro tails h
    cases tails with
    | nil => simp at h
    | cons t ts =>
      simp only [zipApp, List.zipWith_cons_cons, List.map_cons]
      have hlen : ts.length = r.length := by simpa using h
      have htail := ih ts hlen
      rw [zipApp] at htail
      rw [htail]

theorem updV_zipApp (k : LC) (cols : List LC) :
    ∀ (st : PR) (tails : List (List LC)),
      updV (zipApp st tails) k (fun v => cols ++ v)
        = zipApp (updV st k (fun v => cols ++ v)) tails := by
  intro st
  induction st with
  | nil => intro tails; rfl
  | cons p r ih =>
    intro tails
    cases tails with
    | nil => simp [zipApp, updV]
    | cons t ts =>
      obtain ⟨k', v⟩ := p
      by_cases h : k' = k
      · simp only [zipApp, List.zipWith_cons_cons, updV, if_pos h, List.append_assoc]
      · simp only [zipApp, List.zipWith_cons_cons, updV, if_neg h]
        have hih := ih ts
        rw [zipApp] at hih
        rw [hih]
        rfl

theorem applyItem_zipApp (tn : LC) (item : LC × List LC) :
    ∀ (st : PR) (tails : List (List LC)), tails.length = st.length →
      applyItem tn (zipApp st tails) item = zipApp (applyItem tn st item) tails := by
  intro st tails h
  have hkeys : (zipApp (updV st tn (fun v => item.2 ++ v)) tails).map Prod.fst
      = (updV st tn (fun v => item.2 ++ v)).map Prod.fst :=
    zipApp_keys _ tails (by rw [updV_length]; exact h)
  simp only [applyItem, updV_zipApp, hkeys]
  by_cases hc : item.1 ≠ tn ∧ item.1 ∈ (updV st tn (fun v => item.2 ++ v)).map Prod.fst
  · rw [if_pos hc, if_pos hc]
  · rw [if_neg hc, if_neg hc]

theorem foldl_applyItem_zipApp (tn : LC) (items : List (LC × List LC)) :
    ∀ (st : PR) (tails : List (List LC)), tails.length = st.length →
      items.foldl (applyItem tn) (zipApp st tails)
        = zipApp (items.foldl (applyItem tn) st) tails := by
  induction items with
  | nil => intro st tails h; rfl
  | cons it rest ih =>
    intro st tails h
    rw [List.foldl_cons, List.foldl_cons, applyItem_zipApp tn it st tails h]
    exact ih _ tails (by rw [applyItem_length]; exact h)

theorem injectStep_zipApp (keys0 : List LC) (p : LC × TInfo) :
    ∀ (st : PR) (tails : List (List LC)), tails.length = st.length →
      injectStep keys0 (zipApp st tails) p = zipApp (injectStep keys0 st p) tails := by
  intro st tails h
  rw [injectStep, injectStep, zipApp_keys st tails h]
  by_cases hc : p.1 ∈ st.map Prod.fst
  · rw [if_pos hc, if_pos hc, foldl_applyItem_zipApp _ _ st tails h]
  · rw [if_neg hc, if_neg hc]

theorem foldl_injectStep_zipApp (keys0 : List LC) (md : Metadata) :
    ∀ (st : PR) (tails : List (List LC)), tails.length = st.length →
      md.foldl (injectStep keys0) (zipApp st tails)
        = zipApp (md.foldl (injectStep keys0) st) tails := by
  induction md with
  | nil => intro st tails h; rfl
  | cons p r ih =>
    intro st tails h
    rw [List.foldl_cons, List.foldl_cons, injectStep_zipApp keys0 p st tails h]
    exact ih _ tails (by rw [injectStep_length]; exact h)

theorem map_fst_blank (l : List LC) :
    ((l.map (fun k => (k, ([] : List LC)))).map Prod.fst) = l := by
  induction l with
  | nil => rfl
  | cons k r ih => simp [ih]

theorem zipApp_blank (st : PR) :
    zipApp ((st.map Prod.fst).map (fun k => (k, ([] : List LC)))) (st.map Prod.snd) = st := by
  induction st with
  | nil => rfl
  | cons p r ih =>
    simp only [List.map_cons, zipApp, List.zipWith_cons_cons, List.nil_append]
    rw [zipApp] at ih
    rw [ih]

theorem zipWith_swap_eq_zipApp : ∀ (st P : PR), st.map Prod.fst = P.map Prod.fst →
    List.zipWith (fun q pr => (q.1, pr.2 ++ q.2)) st P = zipApp P (st.map Prod.snd) := by
  intro st
  induction st with
  | nil =>
    intro P h
    cases P with
    | nil => rfl
    | cons pr P' => simp at h
  | cons q r ih =>
    intro P h
    cases P with
    | nil => simp at h
    | cons pr P' =>
      simp only [List.map_cons, List.cons.injEq] at h
      simp only [List.zipWith_cons_cons, List.map_cons, zipApp]
      rw [h.1]
      have hih := ih P' h.2
      rw [zipApp] at hih
      rw [hih]

theorem zipApp_twice : ∀ (P : PR) (vals : List (List LC)),
    zipApp (zipApp P (P.map Prod.snd)) vals
      = zipApp P ((zipApp P vals).map Prod.snd) := by
  intro P
  induction P with
  | nil => intro vals; rfl
  | cons p r ih =>
    intro vals
    cases vals with
    | nil => rfl
    | cons v vs =>
      simp only [zipApp, List.map_cons, List.zipWith_cons_cons, List.append_assoc]
      have hih := ih vs
      rw [zipApp, zipApp] at hih
      rw [hih]
      rfl

/-- Unfolding of one and two injector runs as per-table block prepends over
the blocks `P` obtained by injecting into empty column lists. -/
theorem inject_blank_unfold (md : Metadata) (pruned : PR) :
    ∀ P : PR, P = injectKeys md ((pruned.map Prod.fst).map (fun k => (k, ([] : List LC)))) →
      injectKeys md pruned = zipApp P (pruned.map Prod.snd) ∧
      injectKeys md (injectKeys md pruned)
        = zipApp (zipApp P (P.map Prod.snd)) (pruned.map Prod.snd) := by
  intro P hP
  have hbase_len : ((pruned.map Prod.fst).map (fun k => (k, ([] : List LC)))).length
      = pruned.length := by simp
  have hvals_len : (pruned.map Prod.snd).length = pruned.length := by simp
  have hP_keys : P.map Prod.fst = pruned.map Prod.fst := by
    rw [hP, injectKeys_keys, map_fst_blank]
  have hP_len : P.length = pruned.length := by
    have h := congrArg List.length hP_keys
    simpa using h
  have hfold_base :
      List.foldl (injectStep (pruned.map Prod.fst))
        ((pruned.map Prod.fst).map (fun k => (k, ([] : List LC)))) md = P := by
    rw [hP, injectKeys, map_fst_blank]
  have part1 : injectKeys md pruned = zipApp P (pruned.map Prod.snd) := by
    rw [injectKeys]
    have h0 : List.foldl (injectStep (pruned.map Prod.fst)) pruned md
        = List.foldl (injectStep (pruned.map Prod.fst))
            (zipApp ((pruned.map Prod.fst).map (fun k => (k, ([] : List LC))))
              (pruned.map Prod.snd)) md :=
      congrArg (fun z => List.foldl (injectStep (pruned.map Prod.fst)) z md)
        (zipApp_blank pruned).symm
    rw [h0, foldl_injectStep_zipApp (pruned.map Prod.fst) md _ _
      (by rw [hvals_len, hbase_len]), hfold_base]
  refine ⟨part1, ?_⟩
  rw [injectKeys, injectKeys_keys md pruned, part1,
    foldl_injectStep_zipApp (pruned.map Prod.fst) md _ _ (by rw [hvals_len, hP_len])]
  have hbase2 : ((P.map Prod.fst).map (fun k => (k, ([] : List LC))))
      = (pruned.map Prod.fst).map (fun k => (k, ([] : List LC))) := by
    rw [hP_keys]
  have h1 : List.foldl (injectStep (pruned.map Prod.fst)) P md
      = List.foldl (injectStep (pruned.map Prod.fst))
          (zipApp ((P.map Prod.fst).map (fun k => (k, ([] : List LC))))
            (P.map Prod.snd)) md :=
    congrArg (fun z => List.foldl (injectStep (pruned.map Prod.fst)) z md)
      (zipApp_blank P).symm
  rw [h1, hbase2, foldl_injectStep_zipApp (pruned.map Prod.fst) md _ _
    (by rw [hbase_len]; simpa using hP_len),
    hfold_base]

/-- C4 (amended): the injector is not idempotent — both the first and second
applications prepend exactly the same per-table key-column block (the block is
determined by the schema and the surviving key set alone), so running it twice
adds one extra prepend per referencing relationship on top of running it
once. -/
theorem claim_C4 (md : Metadata) (pruned : PR) :
    injectKeys md pruned
      = List.zipWith (fun q pr => (q.1, pr.2 ++ q.2)) pruned
          (injectKeys md ((pruned.map Prod.fst).map (fun k => (k, ([] : List LC)))))
    ∧ injectKeys md (injectKeys md pruned)
      = List.zipWith (fun q pr => (q.1, pr.2 ++ q.2)) (injectKeys md pruned)
          (injectKeys md ((pruned.map Prod.fst).map (fun k => (k, ([] : List LC))))) := by
  obtain ⟨part1, part2⟩ := inject_blank_unfold md pruned
    (injectKeys md ((pruned.map Prod.fst).map (fun k => (k, ([] : List LC))))) rfl
  have hP_keys : (injectKeys md ((pruned.map Prod.fst).map
      (fun k => (k, ([] : List LC))))).map Prod.fst = pruned.map Prod.fst := by
    rw [injectKeys_keys, map_fst_blank]
  constructor
  · rw [zipWith_swap_eq_zipApp pruned _ hP_keys.symm]
    exact part1
  · rw [zipWith_swap_eq_zipApp _ _ (by rw [injectKeys_keys md pruned, hP_keys])]
    rw [part2, zipApp_twice]
    have hsnd : (injectKeys md pruned).map Prod.snd
        = (zipApp (injectKeys md ((pruned.map Prod.fst).map
            (fun k => (k, ([] : List LC))))) (pruned.map Prod.snd)).map Prod.snd := by
      rw [← part1]
    rw [hsnd]

def mdC4 : Metadata := mdC3

/-- C4 counterexample: on a surviving pair of tables linked by one foreign
key, the second run of the injector prepends the key column again, so the
result differs from a single run. -/
theorem claim_C4_counterexample :
    injectKeys mdC4 (injectKeys mdC4 prC3) ≠ injectKeys mdC4 prC3 := by decide

/- ------------------------------------------------------------------ -/
/- parse_context: splitting, searching and the per-line loop.          -/
/- ------------------------------------------------------------------ -/

/-- The text after the first newline of `s`, if any. -/
def nlTail (s : LC) : Option LC :=
  match s.dropWhile (fun c => c ≠ '\n') with
  | [] => none
  | _ :: r => some r

/-- The split-boundary lookahead `(?=--.*?\nCREATE TABLE)`: the text starts
with `--` and, after the rest of that line, a newline directly followed by
`CREATE TABLE` (the dot does not match a newline, so the `\n` of the pattern
is the first newline after the `--`). -/
def lookaheadCmtCreate (s : LC) : Bool :=
  startsWithS ['-', '-'] s &&
    (match nlTail (s.drop 2) with
     | none => false
     | some r3 => startsWithS ("CREATE TABLE".toList) r3)

/-- Greedy `\s*` with backtracking after the `;`: try the longest whitespace
run first, giving back characters until the lookahead holds; returns how many
whitespace characters the match consumes. -/
def semiAux (s : LC) : ℕ → Option ℕ
  | 0 => if lookaheadCmtCreate s then some 0 else none
  | k + 1 =>
    if lookaheadCmtCreate (s.drop (k + 1)) then some (k + 1) else semiAux s k

/-- Whitespace-then-lookahead after a `;`: the number of whitespace characters
consumed, when the split pattern `;\s*(?=--.*?\nCREATE TABLE)` matches here. -/
def semiBoundary (s : LC) : Option ℕ :=
  semiAux s (s.takeWhile isPySpace).length

/-- Split scanner; the middle argument counts characters still to swallow as
part of a just-matched boundary. -/
def reSplitGo : LC → ℕ → LC → List LC
  | acc, _, [] => [acc]
  | acc, skip + 1, _ :: rest => reSplitGo acc skip rest
  | acc, 0, c :: rest =>
    if c = ';' then
      match semiBoundary rest with
      | some k => acc :: reSplitGo [] k rest
      | none => reSplitGo (acc ++ [c]) 0 rest
    else reSplitGo (acc ++ [c]) 0 rest

/-- `re.split(r';\s*(?=--.*?\nCREATE TABLE)', context)`: each match (a `;`
plus the following whitespace, provided the lookahead holds) is removed and
separates two segments. -/
def reSplitAux (acc : LC) (s : LC) : List LC :=
  reSplitGo acc 0 s

/-- Match `\nCREATE TABLE (\w+)` at the head of `s`, returning the greedy
word capture. -/
def matchNlCreate (s : LC) : Option LC :=
  if startsWithS ("\nCREATE TABLE ".toList) s then
    let w := (s.drop 14).takeWhile isWordChar
    if w = [] then none else some w
  else none

/-- Lazy completion of `--(.*?)\nCREATE TABLE (\w+)` after the `--`: the
shortest (DOTALL) comment capture followed by the header match. -/
def findCompletion : LC → Option (LC × LC)
  | [] => none
  | c :: r =>
    match matchNlCreate (c :: r) with
    | some w => some ([], w)
    | none =>
      match findCompletion r with
      | some (cm, w) => some (c :: cm, w)
      | none => none

/-- Try the table-comment pattern anchored at the head of `s`. -/
def searchAt (s : LC) : Option (LC × LC) :=
  match s with
  | c1 :: c2 :: r => if c1 = '-' ∧ c2 = '-' then findCompletion r else none
  | _ => none

/-- `re.search(r'--(.*?)\nCREATE TABLE (\w+)', text, re.DOTALL)`: leftmost
start position wins. -/
def searchCmtCreate : LC → Option (LC × LC)
  | [] => none
  | c :: r =>
    match searchAt (c :: r) with
    | some m => some m
    | none => searchCmtCreate r

/-- Python `str.split('\n')`. -/
def splitNl : LC → List LC
  | [] => [[]]
  | c :: r =>
    if c = '\n' then [] :: splitNl r
    else
      match splitNl r with
      | [] => [[c]]
      | l :: ls => (c :: l) :: ls

/-- `re.match(r'(\w+)\s+(\w+)(.*)', line)`: word run, whitespace run, word
run; the character classes are disjoint, so greedy matching is exact. -/
def reMatchCol (s : LC) : Option (LC × LC) :=
  let w1 := s.takeWhile isWordChar
  if w1 = [] then none
  else
    let r1 := s.drop w1.length
    let sp := r1.takeWhile isPySpace
    if sp = [] then none
    else
      let r2 := r1.drop sp.length
      let w2 := r2.takeWhile isWordChar
      if w2 = [] then none else some (w1, w2)

/-- Python dict assignment `d[k] = v` on an association list: overwrite in
place, else append. -/
def dictInsertC (d : List (LC × CInfo)) (k : LC) (v : CInfo) : List (LC × CInfo) :=
  match d with
  | [] => [(k, v)]
  | (k', v') :: r => if k' = k then (k', v) :: r else (k', v') :: dictInsertC r k v

/-- Python dict assignment for the tables dictionary. -/
def dictInsertT (d : Metadata) (k : LC) (v : TInfo) : Metadata :=
  match d with
  | [] => [(k, v)]
  | (k', v') :: r => if k' = k then (k', v) :: r else (k', v') :: dictInsertT r k v

/-- One iteration of the per-line loop of `parse_context`; the state carries
the table record under construction and the pending column comment. -/
def processLine (st : TInfo × Option LC) (line : LC) : TInfo × Option LC :=
  let l := pyStrip line
  if l = [] then st
  else if startsWithS ("CREATE TABLE".toList) l then st
  else if startsWithS ['-', '-'] l then (st.1, some (pyStrip (pyStripChar '-' l)))
  else if containsS ("PRIMARY KEY".toList) l || containsS ("FOREIGN KEY".toList) l then
    (⟨st.1.comment, st.1.columns, st.1.constraints ++ [pyStripChar ',' l]⟩, st.2)
  else
    match reMatchCol l with
    | some (n, t) =>
      (⟨st.1.comment, dictInsertC st.1.columns n ⟨t, st.2⟩, st.1.constraints⟩, none)
    | none => st

/-- Process one split segment: find the table comment and name; when present,
build the table record from the segment's lines and store it. -/
def parseSegment (dict : Metadata) (seg : LC) : Metadata :=
  match searchCmtCreate seg with
  | none => dict
  | some (cm, nm) =>
    dictInsertT dict nm ((splitNl seg).foldl processLine (⟨pyStrip cm, [], []⟩, none)).1

/-- `parse_context`: split the schema text into segments and build the tables
dictionary. -/
def parse_context (s : LC) : Metadata :=
  (reSplitAux [] s).foldl parseSegment []

/- ------------------------------------------------------------------ -/
/- read_context and generate_prompt (claim C6).                        -/
/- ------------------------------------------------------------------ -/

/-- `read_context`: the file system is abstracted as a partial map from path
to content; a missing file prints an informational message and returns
`None`. -/
def read_context (fs : LC → Option LC) (path : LC) : Option Metadata :=
  match fs path with
  | none => none
  | some txt => some (parse_context txt)

/-- The prompt template of `generate_prompt` (the answer slot is empty). -/
def promptText (q ctx : LC) : LC :=
  "### Question: ".toList ++ q ++ "\n### Context: ".toList ++ ctx
    ++ "\n### Answer: ".toList

/-- `generate_prompt`: read and parse the schema, retrieve the context and
assemble the prompt; a raised exception propagates. -/
def generate_prompt (fs : LC → Option LC) (sim : Option LC → ℚ) (path q : LC) :
    Except String LC :=
  match get_top_k sim (read_context fs path) 5 with
  | Except.error e => Except.error e
  | Except.ok ctx => Except.ok (promptText q ctx)

/-- C6: for a missing input file the reader does return the absence value,
but the claim's non-fatal half fails in the code: `generate_prompt` feeds the
`None` into `get_top_k`, which calls `.values()` on it and raises
`AttributeError`, aborting instead of degrading to an empty context. -/
theorem claim_C6 (fs : LC → Option LC) (sim : Option LC → ℚ) (path q : LC)
    (h : fs path = none) :
    read_context fs path = none ∧
      generate_prompt fs sim path q = Except.error "AttributeError" := by
  have hr : read_context fs path = none := by
    rw [read_context, h]
  refine ⟨hr, ?_⟩
  rw [generate_prompt, hr]
  rfl

/-- Witness for C6 on an empty file system. -/
theorem claim_C6_witness :
    (fun _ : LC => (none : Option LC)) ("context.sql".toList) = none ∧
      (read_context (fun _ : LC => none) ("context.sql".toList) = none ∧
        generate_prompt (fun _ : LC => none) simW ("context.sql".toList) [] =
          Except.error "AttributeError") :=
  ⟨rfl, claim_C6 (fun _ : LC => none) simW ("context.sql".toList) [] rfl⟩

/- ------------------------------------------------------------------ -/
/- Well-formed rendered schemas (claims C8 and C10).                   -/
/- ------------------------------------------------------------------ -/

/-- Python `'\n'.join`. -/
def joinNl : List LC → LC
  | [] => []
  | [l] => l
  | l :: ls => l ++ '\n' :: joinNl ls

/-- A rendered column declaration: name and declared type. -/
structure RCol where
  name : LC
  ty : LC
  deriving DecidableEq

/-- A rendered table: optional comment line, declared name and columns. -/
structure RTable where
  comment : Option LC
  name : LC
  cols : List RCol
  deriving DecidableEq

/-- One column line `name type`. -/
def renderCol (c : RCol) : LC := c.name ++ ' ' :: c.ty

/-- A `CREATE TABLE` statement without its final `;`: the optional comment
line, the header, the column lines and the closing parenthesis. -/
def renderTableBody (rt : RTable) : LC :=
  (match rt.comment with
   | some c => '-' :: '-' :: ' ' :: (c ++ ['\n'])
   | none => ([] : LC)) ++
  ("CREATE TABLE ".toList ++ (rt.name ++ (' ' :: '(' :: '\n' ::
    (joinNl (rt.cols.map renderCol) ++ ['\n', ')']))))

/-- A full rendered statement, `;`-terminated. -/
def renderTable (rt : RTable) : LC := renderTableBody rt ++ [';']

/-- A rendered schema file: the statements separated by newlines. -/
def render (ts : List RTable) : LC := joinNl (ts.map renderTable)

/-- A well-formed identifier: non-empty, word characters only. -/
def WfName (n : LC) : Prop := n ≠ [] ∧ ∀ c ∈ n, isWordChar c = true

/-- A well-formed column declaration: word-character name and type, and the
rendered line is not mistakable for a header or constraint line. -/
def WfCol (cl : RCol) : Prop :=
  WfName cl.name ∧ WfName cl.ty ∧
    startsWithS ("CREATE TABLE".toList) (renderCol cl) = false ∧
    containsS ("PRIMARY KEY".toList) (renderCol cl) = false ∧
    containsS ("FOREIGN KEY".toList) (renderCol cl) = false

/-- A well-formed comment: single-line and without statement terminators. -/
def WfComment : Option LC → Prop
  | none => True
  | some c => ∀ ch ∈ c, ch ≠ '\n' ∧ ch ≠ ';'

instance (o : Option LC) : Decidable (WfComment o) := by
  cases o with
  | none => exact isTrue trivial
  | some c => exact inferInstanceAs (Decidable (∀ ch ∈ c, ch ≠ '\n' ∧ ch ≠ ';'))

/-- A well-formed rendered table. -/
def WfTable (t : RTable) : Prop :=
  WfName t.name ∧ (∀ cl ∈ t.cols, WfCol cl) ∧ WfComment t.comment

/-- A well-formed rendered schema: well-formed tables with distinct names. -/
def WfSchema (ts : List RTable) : Prop :=
  (∀ t ∈ ts, WfTable t) ∧ (ts.map RTable.name).Nodup

instance (n : LC) : Decidable (WfName n) :=
  inferInstanceAs (Decidable (n ≠ [] ∧ ∀ c ∈ n, isWordChar c = true))

instance (cl : RCol) : Decidable (WfCol cl) :=
  inferInstanceAs (Decidable (WfName cl.name ∧ WfName cl.ty ∧
    startsWithS ("CREATE TABLE".toList) (renderCol cl) = false ∧
    containsS ("PRIMARY KEY".toList) (renderCol cl) = false ∧
    containsS ("FOREIGN KEY".toList) (renderCol cl) = false))

instance (t : RTable) : Decidable (WfTable t) :=
  inferInstanceAs (Decidable (WfName t.name ∧ (∀ cl ∈ t.cols, WfCol cl) ∧
    WfComment t.comment))

instance (ts : List RTable) : Decidable (WfSchema ts) :=
  inferInstanceAs (Decidable ((∀ t ∈ ts, WfTable t) ∧ (ts.map RTable.name).Nodup))

theorem word_ne {c d : Char} (h : isWordChar c = true) (hd : isWordChar d = false) :
    c ≠ d := by
  intro hc
  rw [hc, hd] at h
  cases h

theorem word_not_space {c : Char} (h : isWordChar c = true) : isPySpace c = false := by
  cases hps : isPySpace c
  · rfl
  · exfalso
    simp [isPySpace] at hps
    rcases hps with ((((h1 | h1) | h1) | h1) | h1) | h1 <;> (subst h1; exact absurd h (by decide))

theorem startsWithS_append (n z : LC) : startsWithS n (n ++ z) = true := by
  induction n with
  | nil => rfl
  | cons a as ih => simp [startsWithS, ih]

theorem startsWithS_ne_head {a b : Char} (h : ¬(a = b)) (as bs : LC) :
    startsWithS (a :: as) (b :: bs) = false := by
  simp [startsWithS, h]

theorem takeWhile_all {p : Char → Bool} : ∀ {l : LC}, (∀ c ∈ l, p c = true) →
    l.takeWhile p = l := by
  intro l
  induction l with
  | nil => intro h; rfl
  | cons a as ih =>
    intro h
    rw [List.takeWhile_cons, h a (List.mem_cons_self _ _),
      ih (fun c hc => h c (List.mem_cons_of_mem _ hc))]
    simp

theorem takeWhile_append_stop {p : Char → Bool} {n : LC} (hn : ∀ c ∈ n, p c = true)
    {b : Char} (hb : p b = false) (z : LC) : ((n ++ b :: z).takeWhile p) = n := by
  induction n with
  | nil =>
    rw [List.nil_append, List.takeWhile_cons, hb]
    simp
  | cons a as ih =>
    rw [List.cons_append, List.takeWhile_cons, hn a (List.mem_cons_self _ _),
      ih (fun c hc => hn c (List.mem_cons_of_mem _ hc))]
    simp

theorem dropWhile_ne_nl {A : LC} (hA : ∀ ch ∈ A, ch ≠ '\n') (B : LC) :
    ((A ++ '\n' :: B).dropWhile (fun c => c ≠ '\n')) = '\n' :: B := by
  induction A with
  | nil =>
    rw [List.nil_append, List.dropWhile_cons]
    simp
  | cons a A' ih =>
    rw [List.cons_append, List.dropWhile_cons]
    have ha : a ≠ '\n' := hA a (List.mem_cons_self _ _)
    rw [if_pos (by simp [ha])]
    exact ih (fun ch hch => hA ch (List.mem_cons_of_mem _ hch))

theorem nlTail_append {A : LC} (hA : ∀ ch ∈ A, ch ≠ '\n') (B : LC) :
    nlTail (A ++ '\n' :: B) = some B := by
  rw [nlTail, dropWhile_ne_nl hA]

theorem lookahead_commented {c0 : LC} (hc : ∀ ch ∈ c0, ch ≠ '\n') (z : LC) :
    lookaheadCmtCreate
      ('-' :: '-' :: (' ' :: c0 ++ '\n' :: ("CREATE TABLE".toList ++ z))) = true := by
  rw [lookaheadCmtCreate]
  have h1 : startsWithS ['-', '-']
      ('-' :: '-' :: (' ' :: c0 ++ '\n' :: ("CREATE TABLE".toList ++ z))) = true := by
    simp [startsWithS]
  rw [h1]
  have h2 : (('-' :: '-' :: (' ' :: c0 ++ '\n' :: ("CREATE TABLE".toList ++ z))).drop 2)
      = (' ' :: c0) ++ '\n' :: ("CREATE TABLE".toList ++ z) := by
    simp
  rw [h2, nlTail_append (by
    intro ch hch
    rcases List.mem_cons.1 hch with h' | h'
    · rw [h']; decide
    · exact hc ch h'), Bool.true_and]
  exact startsWithS_append _ _

theorem lookahead_nodash {s : LC} (hs : ∀ ch ∈ s, ch ≠ '-') :
    lookaheadCmtCreate s = false := by
  cases s with
  | nil => rfl
  | cons c r =>
    rw [lookaheadCmtCreate]
    have h1 : startsWithS ['-', '-'] (c :: r) = false :=
      startsWithS_ne_head (fun h => (hs c (List.mem_cons_self _ _)) h.symm) _ _
    rw [h1]
    rfl

theorem semiBoundary_nil : semiBoundary [] = none := rfl

theorem semiBoundary_nl {B : LC} (hhd : startsWithS ['-', '-'] B = true)
    (h : lookaheadCmtCreate B = true) :
    semiBoundary ('\n' :: B) = some 1 := by
  have hBtw : B.takeWhile isPySpace = [] := by
    cases B with
    | nil => rfl
    | cons b bs =>
      have hb : b = '-' := by
        rw [startsWithS] at hhd
        simp at hhd
        exact hhd.1.symm
      rw [List.takeWhile_cons, hb]
      simp [isPySpace]
  rw [semiBoundary]
  have ht : (('\n' :: B).takeWhile isPySpace).length = 1 := by
    rw [List.takeWhile_cons]
    rw [if_pos (by decide), hBtw]
    rfl
  rw [ht, semiAux]
  rw [List.drop_succ_cons, List.drop_zero, if_pos h]

theorem semiBoundary_none_head {B : LC} (hB : lookaheadCmtCreate B = false)
    (hBa : lookaheadCmtCreate ('\n' :: B) = false) (hsp : B.takeWhile isPySpace = []) :
    semiBoundary ('\n' :: B) = none := by
  rw [semiBoundary]
  have ht : (('\n' :: B).takeWhile isPySpace).length = 1 := by
    rw [List.takeWhile_cons, if_pos (by decide), hsp]
    rfl
  rw [ht, semiAux]
  rw [List.drop_succ_cons, List.drop_zero, if_neg (by rw [hB]; exact Bool.false_ne_true),
    semiAux, if_neg (by rw [hBa]; exact Bool.false_ne_true)]

theorem matchNl_none_of_ne {c : Char} (hc : c ≠ '\n') (z : LC) :
    matchNlCreate (c :: z) = none := by
  rw [matchNlCreate]
  have h1 : startsWithS ("\nCREATE TABLE ".toList) (c :: z) = false :=
    startsWithS_ne_head (fun h => hc h.symm) _ _
  rw [h1]
  simp

theorem findCompletion_skip {A : LC} (hA : ∀ ch ∈ A, ch ≠ '\n') :
    ∀ {b : Char} {B' : LC} {w : LC}, matchNlCreate (b :: B') = some w →
      findCompletion (A ++ b :: B') = some (A, w) := by
  induction A with
  | nil =>
    intro b B' w hB
    rw [List.nil_append, findCompletion, hB]
  | cons a A' ih =>
    intro b B' w hB
    rw [List.cons_append, findCompletion,
      matchNl_none_of_ne (hA a (List.mem_cons_self _ _)) _,
      ih (fun ch hch => hA ch (List.mem_cons_of_mem _ hch)) hB]

theorem matchNl_header (n z : LC) (hn : WfName n) :
    matchNlCreate ('\n' :: ("CREATE TABLE ".toList ++ (n ++ ' ' :: z))) = some n := by
  have hform : '\n' :: ("CREATE TABLE ".toList ++ (n ++ ' ' :: z))
      = "\nCREATE TABLE ".toList ++ (n ++ ' ' :: z) := by
    rfl
  rw [hform, matchNlCreate, if_pos (startsWithS_append _ _)]
  have hdrop : (("\nCREATE TABLE ".toList ++ (n ++ ' ' :: z)).drop 14) = n ++ ' ' :: z := by
    have hlen : ("\nCREATE TABLE ".toList).length = 14 := by decide
    rw [← hlen]
    exact List.drop_left _ _
  rw [hdrop, takeWhile_append_stop hn.2 (by decide) z]
  simp [hn.1]

theorem search_render {c0 n : LC} (hc : ∀ ch ∈ c0, ch ≠ '\n') (hn : WfName n) (z : LC) :
    searchCmtCreate
      ('-' :: '-' :: (' ' :: c0 ++ '\n' :: ("CREATE TABLE ".toList ++ (n ++ ' ' :: z))))
      = some (' ' :: c0, n) := by
  rw [searchCmtCreate]
  have hAt : searchAt
      ('-' :: '-' :: (' ' :: c0 ++ '\n' :: ("CREATE TABLE ".toList ++ (n ++ ' ' :: z))))
      = some (' ' :: c0, n) := by
    rw [searchAt, if_pos ⟨rfl, rfl⟩]
    exact findCompletion_skip
      (by
        intro ch hch
        rcases List.mem_cons.1 hch with h' | h'
        · rw [h']; decide
        · exact hc ch h')
      (matchNl_header n z hn)
  rw [hAt]

theorem search_nodash {s : LC} (hs : ∀ ch ∈ s, ch ≠ '-') : searchCmtCreate s = none := by
  induction s with
  | nil => rfl
  | cons c r ih =>
    rw [searchCmtCreate]
    have hAt : searchAt (c :: r) = none := by
      cases r with
      | nil => rfl
      | cons c2 r2 =>
        rw [searchAt]
        exact if_neg (fun hand => (hs c (List.mem_cons_self _ _)) hand.1)
    rw [hAt]
    exact ih (fun ch hch => hs ch (List.mem_cons_of_mem _ hch))

theorem forall_mem_append {p : Char → Prop} {a b : LC} (ha : ∀ ch ∈ a, p ch)
    (hb : ∀ ch ∈ b, p ch) : ∀ ch ∈ a ++ b, p ch := by
  intro ch hch
  rcases List.mem_append.1 hch with h | h
  · exact ha ch h
  · exact hb ch h

theorem forall_mem_joinNl {p : Char → Prop} (hnl : p '\n') :
    ∀ ls : List LC, (∀ l ∈ ls, ∀ ch ∈ l, p ch) → ∀ ch ∈ joinNl ls, p ch := by
  intro ls
  induction ls with
  | nil => intro h ch hch; cases hch
  | cons l ls' ih =>
    intro h ch hch
    cases ls' with
    | nil => exact h l (List.mem_cons_self _ _) ch hch
    | cons l2 ls'' =>
      have hj : joinNl (l :: l2 :: ls'') = l ++ '\n' :: joinNl (l2 :: ls'') := rfl
      rw [hj] at hch
      rcases List.mem_append.1 hch with h' | h'
      · exact h l (List.mem_cons_self _ _) ch h'
      · rcases List.mem_cons.1 h' with h'' | h''
        · rw [h'']; exact hnl
        · exact ih (fun l' hl' => h l' (List.mem_cons_of_mem _ hl')) ch h''

theorem mem_renderCol {cl : RCol} (hcl : WfCol cl) :
    ∀ ch ∈ renderCol cl, isWordChar ch = true ∨ ch = ' ' := by
  intro ch hch
  rw [renderCol] at hch
  rcases List.mem_append.1 hch with h | h
  · exact Or.inl (hcl.1.2 ch h)
  · rcases List.mem_cons.1 h with h' | h'
    · exact Or.inr h'
    · exact Or.inl (hcl.2.1.2 ch h')

theorem body_no_semi {t : RTable} (hwf : WfTable t) :
    ∀ ch ∈ renderTableBody t, ch ≠ ';' := by
  rw [renderTableBody]
  apply forall_mem_append
  · cases hcm : t.comment with
    | none => intro ch hch; cases hch
    | some c =>
      have hwc : ∀ ch ∈ c, ch ≠ '\n' ∧ ch ≠ ';' := by
        have h := hwf.2.2
        rw [hcm] at h
        exact h
      intro ch hch
      rcases List.mem_cons.1 hch with h' | h'
      · rw [h']; decide
      rcases List.mem_cons.1 h' with h2 | h2
      · rw [h2]; decide
      rcases List.mem_cons.1 h2 with h3 | h3
      · rw [h3]; decide
      rcases List.mem_append.1 h3 with h4 | h4
      · exact (hwc ch h4).2
      · rcases List.mem_cons.1 h4 with h5 | h5
        · rw [h5]; decide
        · cases h5
  · apply forall_mem_append
    · intro ch hch
      have hct : ∀ x ∈ ("CREATE TABLE ".toList), x ≠ ';' := by decide
      exact hct ch hch
    · apply forall_mem_append
      · intro ch hch
        exact word_ne (hwf.1.2 ch hch) (by decide)
      · intro ch hch
        rcases List.mem_cons.1 hch with h' | h'
        · rw [h']; decide
        rcases List.mem_cons.1 h' with h2 | h2
        · rw [h2]; decide
        rcases List.mem_cons.1 h2 with h3 | h3
        · rw [h3]; decide
        rcases List.mem_append.1 h3 with h4 | h4
        · exact forall_mem_joinNl (p := fun ch => ch ≠ ';') (by decide) _
            (fun l hl => by
              obtain ⟨cl, hcl, hrc⟩ := List.mem_map.1 hl
              intro x hx
              rw [← hrc] at hx
              rcases mem_renderCol (hwf.2.1 cl hcl) x hx with hw | hs
              · exact word_ne hw (by decide)
              · rw [hs]; decide) ch h4
        · rcases List.mem_cons.1 h4 with h5 | h5
          · rw [h5]; decide
          rcases List.mem_cons.1 h5 with h6 | h6
          · rw [h6]; decide
          · cases h6

theorem renderTable_nodash {t : RTable} (hwf : WfTable t) (hnc : t.comment = none) :
    ∀ ch ∈ renderTable t, ch ≠ '-' := by
  rw [renderTable, renderTableBody, hnc]
  apply forall_mem_append
  · rw [List.nil_append]
    apply forall_mem_append
    · intro ch hch
      have hct : ∀ x ∈ ("CREATE TABLE ".toList), x ≠ '-' := by decide
      exact hct ch hch
    · apply forall_mem_append
      · intro ch hch
        exact word_ne (hwf.1.2 ch hch) (by decide)
      · intro ch hch
        rcases List.mem_cons.1 hch with h' | h'
        · rw [h']; decide
        rcases List.mem_cons.1 h' with h2 | h2
        · rw [h2]; decide
        rcases List.mem_cons.1 h2 with h3 | h3
        · rw [h3]; decide
        rcases List.mem_append.1 h3 with h4 | h4
        · exact forall_mem_joinNl (p := fun ch => ch ≠ '-') (by decide) _
            (fun l hl => by
              obtain ⟨cl, hcl, hrc⟩ := List.mem_map.1 hl
              intro x hx
              rw [← hrc] at hx
              rcases mem_renderCol (hwf.2.1 cl hcl) x hx with hw | hs
              · exact word_ne hw (by decide)
              · rw [hs]; decide) ch h4
        · rcases List.mem_cons.1 h4 with h5 | h5
          · rw [h5]; decide
          rcases List.mem_cons.1 h5 with h6 | h6
          · rw [h6]; decide
          · cases h6
  · intro ch hch
    rcases List.mem_cons.1 hch with h' | h'
    · rw [h']; decide
    · cases h'

theorem mem_of_mem_dropLast {α : Type} {l : List α} {x : α} (h : x ∈ l.dropLast) :
    x ∈ l := by
  induction l with
  | nil => cases h
  | cons a r ih =>
    cases r with
    | nil => cases h
    | cons b r' =>
      rcases List.mem_cons.1 h with h' | h'
      · rw [h']; exact List.mem_cons_self _ _
      · exact List.mem_cons_of_mem _ (ih h')

theorem dropLast_append_ne {α : Type} (A : List α) {B : List α} (hB : B ≠ []) :
    (A ++ B).dropLast = A ++ B.dropLast := by
  induction A with
  | nil => simp
  | cons a A' ih =>
    rw [List.cons_append]
    have hne : A' ++ B ≠ [] := by
      intro h
      exact hB (List.append_eq_nil.1 h).2
    cases hx : A' ++ B with
    | nil => exact absurd hx hne
    | cons y ys =>
      rw [List.dropLast_cons₂, ← hx, ih, List.cons_append]

theorem dropLast_cons_ne {α : Type} (a : α) {l : List α} (h : l ≠ []) :
    (a :: l).dropLast = a :: l.dropLast := by
  cases l with
  | nil => exact absurd rfl h
  | cons b r => rw [List.dropLast_cons₂]

theorem dropLast_singleton_append {α : Type} (A : List α) (a : α) :
    (A ++ [a]).dropLast = A := by
  rw [dropLast_append_ne A (by simp)]
  simp

/- ------------------------------------------------------------------ -/
/- Segment structure of a rendered schema.                             -/
/- ------------------------------------------------------------------ -/

/-- Group the tables as the split boundary does: every commented table starts
a new segment; uncommented tables merge into the preceding segment. -/
def segmentsOf : List RTable → List (List RTable)
  | [] => []
  | t :: rest =>
    match segmentsOf rest with
    | [] => [[t]]
    | g :: gs =>
      match g with
      | [] => [t] :: gs
      | h :: g' => if h.comment.isSome then [t] :: (h :: g') :: gs else (t :: h :: g') :: gs

/-- The raw text of one segment group before boundary trimming. -/
def segText (g : List RTable) : LC := joinNl (g.map renderTable)

/-- The texts the splitter produces: every segment but the last loses the `;`
consumed by the boundary match. -/
def segTexts : List (List RTable) → List LC
  | [] => []
  | [g] => [segText g]
  | g :: gs => (segText g).dropLast :: segTexts gs

/-- Prepend pending output to the head segment. -/
def consHead (acc : LC) : List LC → List LC
  | [] => [acc]
  | x :: xs => (acc ++ x) :: xs

theorem renderTable_ne_nil (t : RTable) : renderTable t ≠ [] := by
  rw [renderTable]
  intro h
  cases (List.append_eq_nil.1 h).2

theorem segText_ne_nil {g : List RTable} (h : g ≠ []) : segText g ≠ [] := by
  cases g with
  | nil => exact absurd rfl h
  | cons t g' =>
    rw [segText, List.map_cons]
    cases hg : g'.map renderTable with
    | nil =>
      rw [joinNl]
      exact renderTable_ne_nil t
    | cons y ys =>
      rw [joinNl]
      · intro hx
        exact renderTable_ne_nil t (List.append_eq_nil.1 hx).1
      · simp

theorem segText_cons {t : RTable} {g : List RTable} (h : g ≠ []) :
    segText (t :: g) = renderTable t ++ '\n' :: segText g := by
  rw [segText, segText, List.map_cons]
  cases hg : g.map renderTable with
  | nil => exact absurd (List.map_eq_nil_iff.1 hg) h
  | cons y ys =>
    rw [joinNl]
    simp

theorem render_cons {t : RTable} {rest : List RTable} (h : rest ≠ []) :
    render (t :: rest) = renderTable t ++ '\n' :: render rest := by
  rw [render, render, List.map_cons]
  cases hg : rest.map renderTable with
  | nil => exact absurd (List.map_eq_nil_iff.1 hg) h
  | cons y ys =>
    rw [joinNl]
    simp

theorem segmentsOf_cons_eq (t : RTable) (rest : List RTable) :
    segmentsOf (t :: rest) =
      match segmentsOf rest with
      | [] => [[t]]
      | g :: gs =>
        match g with
        | [] => [t] :: gs
        | h :: g' =>
          if h.comment.isSome then [t] :: (h :: g') :: gs else (t :: h :: g') :: gs := rfl

theorem segmentsOf_cons_of_nil {t : RTable} {rest : List RTable}
    (hs : segmentsOf rest = []) : segmentsOf (t :: rest) = [[t]] := by
  rw [segmentsOf_cons_eq, hs]

theorem segmentsOf_cons_commented {t h0 : RTable} {rest g' : List RTable}
    {gs0 : List (List RTable)} (hs : segmentsOf rest = (h0 :: g') :: gs0)
    (hc : h0.comment.isSome = true) :
    segmentsOf (t :: rest) = [t] :: (h0 :: g') :: gs0 := by
  rw [segmentsOf_cons_eq, hs]
  exact if_pos hc

theorem segmentsOf_cons_uncommented {t h0 : RTable} {rest g' : List RTable}
    {gs0 : List (List RTable)} (hs : segmentsOf rest = (h0 :: g') :: gs0)
    (hc : h0.comment.isSome = false) :
    segmentsOf (t :: rest) = (t :: h0 :: g') :: gs0 := by
  rw [segmentsOf_cons_eq, hs]
  exact if_neg (by rw [hc]; exact Bool.false_ne_true)

theorem segmentsOf_ne_nil {ts : List RTable} (h : ts ≠ []) : segmentsOf ts ≠ [] := by
  cases ts with
  | nil => exact absurd rfl h
  | cons t rest =>
    rw [segmentsOf]
    cases hs : segmentsOf rest with
    | nil => simp
    | cons g gs =>
      cases g with
      | nil => simp
      | cons h0 g' =>
        by_cases hc : h0.comment.isSome
        · simp [hc]
        · simp [hc]

theorem segmentsOf_head {t : RTable} {rest : List RTable} {g : List RTable}
    {gs : List (List RTable)} (h : segmentsOf (t :: rest) = g :: gs) :
    ∃ g', g = t :: g' := by
  cases hs : segmentsOf rest with
  | nil =>
    rw [segmentsOf_cons_of_nil hs] at h
    injection h with h1 h2
    exact ⟨[], h1.symm⟩
  | cons g0 gs0 =>
    cases g0 with
    | nil =>
      have he : segmentsOf (t :: rest) = [t] :: gs0 := by
        rw [segmentsOf_cons_eq, hs]
      rw [he] at h
      injection h with h1 h2
      exact ⟨[], h1.symm⟩
    | cons h0 g0' =>
      by_cases hc : h0.comment.isSome
      · rw [segmentsOf_cons_commented hs hc] at h
        injection h with h1 h2
        exact ⟨[], h1.symm⟩
      · rw [segmentsOf_cons_uncommented hs (by simpa using hc)] at h
        injection h with h1 h2
        exact ⟨h0 :: g0', h1.symm⟩

theorem segmentsOf_inv : ∀ {ts : List RTable}, (∀ t ∈ ts, WfTable t) →
    ∀ g ∈ segmentsOf ts,
      g ≠ [] ∧ (∀ t ∈ g, WfTable t) ∧ ∀ t ∈ g.tail, t.comment = none := by
  intro ts
  induction ts with
  | nil => intro hwf g hg; cases hg
  | cons t rest ih =>
    intro hwf g hg
    have hrest : ∀ x ∈ rest, WfTable x := fun x hx => hwf x (List.mem_cons_of_mem _ hx)
    have ht : WfTable t := hwf t (List.mem_cons_self _ _)
    cases hs : segmentsOf rest with
    | nil =>
      rw [segmentsOf_cons_of_nil hs] at hg
      rcases List.mem_cons.1 hg with h' | h'
      · subst h'
        refine ⟨by simp, ?_, ?_⟩
        · intro x hx
          rcases List.mem_cons.1 hx with h2 | h2
          · rw [h2]; exact ht
          · cases h2
        · intro x hx; cases hx
      · cases h'
    | cons g0 gs0 =>
      cases g0 with
      | nil =>
        have h0 := ih hrest [] (by rw [hs]; exact List.mem_cons_self _ _)
        exact absurd rfl h0.1
      | cons h0 g0' =>
        by_cases hc : h0.comment.isSome
        · rw [segmentsOf_cons_commented hs hc] at hg
          rcases List.mem_cons.1 hg with h' | h'
          · subst h'
            refine ⟨by simp, ?_, ?_⟩
            · intro x hx
              rcases List.mem_cons.1 hx with h2 | h2
              · rw [h2]; exact ht
              · cases h2
            · intro x hx; cases hx
          · exact ih hrest g (by rw [hs]; exact h')
        · rw [segmentsOf_cons_uncommented hs (by simpa using hc)] at hg
          rcases List.mem_cons.1 hg with h' | h'
          · subst h'
            have hold := ih hrest (h0 :: g0') (by rw [hs]; exact List.mem_cons_self _ _)
            refine ⟨by simp, ?_, ?_⟩
            · intro x hx
              rcases List.mem_cons.1 hx with h2 | h2
              · rw [h2]; exact ht
              · exact hold.2.1 x h2
            · intro x hx
              rcases List.mem_cons.1 hx with h2 | h2
              · rw [h2]
                cases hcc : h0.comment with
                | none => rfl
                | some c =>
                  rw [hcc] at hc
                  exact absurd (rfl : (Option.some c).isSome = true) hc
              · exact hold.2.2 x h2
          · exact ih hrest g (by rw [hs]; exact List.mem_cons_of_mem _ h')

/- ------------------------------------------------------------------ -/
/- Decomposition of rendered statements for the scanner.               -/
/- ------------------------------------------------------------------ -/

theorem ct_space : ("CREATE TABLE ".toList) = ("CREATE TABLE".toList) ++ [' '] := by decide

theorem renderTable_commented_decomp {r0 : RTable} {c : LC} (hcm : r0.comment = some c)
    (z : LC) :
    renderTable r0 ++ z
      = '-' :: '-' :: (' ' :: c ++ '\n' ::
          ("CREATE TABLE ".toList ++ (r0.name ++ ' ' ::
            ('(' :: '\n' :: (joinNl (r0.cols.map renderCol) ++ '\n' :: ')' :: ';' :: z))))) := by
  rw [renderTable, renderTableBody, hcm]
  simp

theorem renderTableBody_commented_decomp {r0 : RTable} {c : LC} (hcm : r0.comment = some c) :
    renderTableBody r0
      = '-' :: '-' :: (' ' :: c ++ '\n' ::
          ("CREATE TABLE ".toList ++ (r0.name ++ ' ' ::
            ('(' :: '\n' :: (joinNl (r0.cols.map renderCol) ++ ['\n', ')']))))) := by
  rw [renderTableBody, hcm]
  simp

theorem hCT_head : ("CREATE TABLE ".toList) = 'C' :: ("REATE TABLE ".toList) := by decide

theorem renderTable_uncommented_head {r0 : RTable} (hcm : r0.comment = none) (z : LC) :
    renderTable r0 ++ z
      = 'C' :: ("REATE TABLE ".toList ++ (r0.name ++ ' ' ::
          ('(' :: '\n' :: (joinNl (r0.cols.map renderCol) ++ '\n' :: ')' :: ';' :: z)))) := by
  rw [renderTable, renderTableBody, hcm, hCT_head]
  simp

theorem lookahead_commented_sp {c0 : LC} (hc : ∀ ch ∈ c0, ch ≠ '\n') (w : LC) :
    lookaheadCmtCreate
      ('-' :: '-' :: (' ' :: c0 ++ '\n' :: ("CREATE TABLE ".toList ++ w))) = true := by
  rw [ct_space, List.append_assoc]
  exact lookahead_commented hc ([' '] ++ w)

theorem startsWith_dd (x : LC) : startsWithS ['-', '-'] ('-' :: '-' :: x) = true := by
  simp [startsWithS]

/- ------------------------------------------------------------------ -/
/- Scanner step lemmas.                                                -/
/- ------------------------------------------------------------------ -/

theorem reSplitGo_skip : ∀ (k : ℕ) (s acc : LC),
    reSplitGo acc k s = reSplitGo acc 0 (s.drop k) := by
  intro k
  induction k with
  | zero => intro s acc; rw [List.drop_zero]
  | succ k ih =>
    intro s acc
    cases s with
    | nil => rfl
    | cons c rest =>
      rw [reSplitGo, List.drop_succ_cons, ih]

theorem reSplit_cons_ne {c : Char} (hc : c ≠ ';') (acc rest : LC) :
    reSplitGo acc 0 (c :: rest) = reSplitGo (acc ++ [c]) 0 rest := by
  rw [reSplitGo, if_neg hc]

theorem reSplit_semi_none {rest : LC} (h : semiBoundary rest = none) (acc : LC) :
    reSplitGo acc 0 (';' :: rest) = reSplitGo (acc ++ [';']) 0 rest := by
  rw [reSplitGo, if_pos rfl, h]

theorem reSplit_semi_some {rest : LC} {k : ℕ} (h : semiBoundary rest = some k) (acc : LC) :
    reSplitGo acc 0 (';' :: rest) = acc :: reSplitGo [] 0 (rest.drop k) := by
  rw [reSplitGo, if_pos rfl, h]
  show acc :: reSplitGo [] k rest = acc :: reSplitGo [] 0 (rest.drop k)
  rw [reSplitGo_skip]

theorem reSplit_scan : ∀ (A : LC), (∀ ch ∈ A, ch ≠ ';') →
    ∀ (acc s : LC), reSplitGo acc 0 (A ++ s) = reSplitGo (acc ++ A) 0 s := by
  intro A
  induction A with
  | nil =>
    intro h acc s
    simp
  | cons a A' ih =>
    intro h acc s
    have ha : a ≠ ';' := h a (List.mem_cons_self _ _)
    rw [List.cons_append, reSplit_cons_ne ha,
      ih (fun ch hch => h ch (List.mem_cons_of_mem _ hch))]
    simp

theorem segTexts_single (g : List RTable) : segTexts [g] = [segText g] := rfl

theorem segTexts_cons2 (g gg : List RTable) (ggs : List (List RTable)) :
    segTexts (g :: gg :: ggs) = (segText g).dropLast :: segTexts (gg :: ggs) := rfl

theorem segTexts_cons_ne_nil {g : List RTable} {gs : List (List RTable)} :
    segTexts (g :: gs) ≠ [] := by
  cases gs with
  | nil =>
    intro h
    rw [segTexts_single] at h
    cases h
  | cons gg ggs =>
    intro h
    rw [segTexts_cons2] at h
    cases h

theorem consHead_nil {l : List LC} (h : l ≠ []) : consHead [] l = l := by
  cases l with
  | nil => exact absurd rfl h
  | cons x xs => rw [consHead, List.nil_append]

theorem lookahead_false_of_head {s : LC} (h : startsWithS ['-', '-'] s = false) :
    lookaheadCmtCreate s = false := by
  rw [lookaheadCmtCreate, h]
  rfl

theorem reSplit_render : ∀ (ts : List RTable), (∀ t ∈ ts, WfTable t) →
    ∀ acc, reSplitGo acc 0 (render ts) = consHead acc (segTexts (segmentsOf ts)) := by
  intro ts
  induction ts with
  | nil =>
    intro hwf acc
    rfl
  | cons t rest ih =>
    intro hwf acc
    have hwt : WfTable t := hwf t (List.mem_cons_self _ _)
    have hwrest : ∀ x ∈ rest, WfTable x := fun x hx => hwf x (List.mem_cons_of_mem _ hx)
    have hbody := body_no_semi hwt
    cases rest with
    | nil =>
      have hrender : render [t] = renderTableBody t ++ [';'] := by
        rw [render, List.map_cons, List.map_nil, joinNl, renderTable]
      rw [hrender, reSplit_scan _ hbody acc [';'], reSplit_semi_none semiBoundary_nil _]
      rw [segmentsOf_cons_of_nil (show segmentsOf ([] : List RTable) = [] from rfl),
        segTexts_single, consHead]
      have hst : segText [t] = renderTableBody t ++ [';'] := by
        rw [segText, List.map_cons, List.map_nil, joinNl, renderTable]
      rw [hst]
      show [(acc ++ renderTableBody t) ++ [';']] = [acc ++ (renderTableBody t ++ [';'])]
      rw [List.append_assoc]
    | cons r0 rest' =>
      have hrne : (r0 :: rest') ≠ [] := by simp
      have hrender : render (t :: r0 :: rest')
          = renderTableBody t ++ (';' :: '\n' :: render (r0 :: rest')) := by
        rw [render_cons hrne, renderTable, List.append_assoc]
        rfl
      have hwstart : ∃ w, render (r0 :: rest') = renderTable r0 ++ w := by
        cases rest' with
        | nil =>
          refine ⟨[], ?_⟩
          rw [render, List.map_cons, List.map_nil, joinNl, List.append_nil]
        | cons r1 rest'' => exact ⟨'\n' :: render (r1 :: rest''), render_cons (by simp)⟩
      obtain ⟨w, hw⟩ := hwstart
      cases hsg : segmentsOf (r0 :: rest') with
      | nil => exact absurd hsg (segmentsOf_ne_nil hrne)
      | cons g gs =>
        obtain ⟨g', hg'⟩ := segmentsOf_head hsg
        subst hg'
        cases hcm : r0.comment with
        | some c =>
          have hwr0 : WfTable r0 := hwrest r0 (List.mem_cons_self _ _)
          have hwc : ∀ ch ∈ c, ch ≠ '\n' := by
            have h := hwr0.2.2
            rw [hcm] at h
            exact fun ch hch => (h ch hch).1
          have hform : render (r0 :: rest')
              = '-' :: '-' :: (' ' :: c ++ '\n' ::
                  ("CREATE TABLE ".toList ++ (r0.name ++ ' ' ::
                    ('(' :: '\n' :: (joinNl (r0.cols.map renderCol)
                      ++ '\n' :: ')' :: ';' :: w))))) := by
            rw [hw, renderTable_commented_decomp hcm w]
          have hdd : startsWithS ['-', '-'] (render (r0 :: rest')) = true := by
            rw [hform]
            exact startsWith_dd _
          have hlook : lookaheadCmtCreate (render (r0 :: rest')) = true := by
            rw [hform]
            exact lookahead_commented_sp hwc _
          have hsb : semiBoundary ('\n' :: render (r0 :: rest')) = some 1 :=
            semiBoundary_nl hdd hlook
          rw [hrender, reSplit_scan _ hbody acc _, reSplit_semi_some hsb _,
            List.drop_succ_cons, List.drop_zero, ih hwrest []]
          rw [segmentsOf_cons_commented hsg (by rw [hcm]; rfl), segTexts_cons2, consHead]
          have hst : segText [t] = renderTableBody t ++ [';'] := by
            rw [segText, List.map_cons, List.map_nil, joinNl, renderTable]
          rw [hst, dropLast_singleton_append, hsg, consHead_nil segTexts_cons_ne_nil]
        | none =>
          have hheadC : render (r0 :: rest')
              = 'C' :: ("REATE TABLE ".toList ++ (r0.name ++ ' ' ::
                  ('(' :: '\n' :: (joinNl (r0.cols.map renderCol)
                    ++ '\n' :: ')' :: ';' :: w)))) := by
            rw [hw, renderTable_uncommented_head hcm w]
          have hB : lookaheadCmtCreate (render (r0 :: rest')) = false := by
            apply lookahead_false_of_head
            rw [hheadC]
            exact startsWithS_ne_head (by decide) _ _
          have hBa : lookaheadCmtCreate ('\n' :: render (r0 :: rest')) = false := by
            apply lookahead_false_of_head
            exact startsWithS_ne_head (by decide) _ _
          have hsp : (render (r0 :: rest')).takeWhile isPySpace = [] := by
            rw [hheadC, List.takeWhile_cons]
            rw [if_neg (by decide)]
          have hsb : semiBoundary ('\n' :: render (r0 :: rest')) = none :=
            semiBoundary_none_head hB hBa hsp
          rw [hrender, reSplit_scan _ hbody acc _, reSplit_semi_none hsb _,
            reSplit_cons_ne (by decide) _ _, ih hwrest _]
          rw [hsg, segmentsOf_cons_uncommented hsg (by rw [hcm]; rfl)]
          cases gs with
          | nil =>
            rw [segTexts_single, segTexts_single, consHead, consHead]
            have hst : segText (t :: r0 :: g') = renderTable t ++ '\n' :: segText (r0 :: g') :=
              segText_cons (by simp)
            rw [hst, renderTable]
            simp
          | cons gg ggs =>
            rw [segTexts_cons2, segTexts_cons2, consHead, consHead]
            have hst : segText (t :: r0 :: g') = renderTable t ++ '\n' :: segText (r0 :: g') :=
              segText_cons (by simp)
            have hdl : (segText (t :: r0 :: g')).dropLast
                = renderTable t ++ '\n' :: (segText (r0 :: g')).dropLast := by
              rw [hst, dropLast_append_ne _ (by simp),
                dropLast_cons_ne _ (segText_ne_nil (by simp))]
            rw [hdl, renderTable]
            simp

/- ------------------------------------------------------------------ -/
/- Lines of a split segment.                                           -/
/- ------------------------------------------------------------------ -/

theorem splitNl_ne_nil : ∀ s : LC, splitNl s ≠ [] := by
  intro s
  induction s with
  | nil => intro h; cases h
  | cons c r ih =>
    rw [splitNl]
    by_cases hc : c = '\n'
    · rw [if_pos hc]
      intro h; cases h
    · rw [if_neg hc]
      cases hr : splitNl r with
      | nil => intro h; cases h
      | cons l ls => intro h; cases h

theorem splitNl_append : ∀ (X Y : LC), splitNl (X ++ '\n' :: Y) = splitNl X ++ splitNl Y := by
  intro X
  induction X with
  | nil =>
    intro Y
    rw [List.nil_append]
    have h1 : splitNl ('\n' :: Y) = [] :: splitNl Y := by
      rw [splitNl]
      rw [if_pos rfl]
    rw [h1]
    rfl
  | cons c X' ih =>
    intro Y
    rw [List.cons_append, splitNl]
    by_cases hc : c = '\n'
    · rw [if_pos hc, ih Y, splitNl, if_pos hc]
      rfl
    · rw [if_neg hc, ih Y]
      cases hX : splitNl X' with
      | nil => exact absurd hX (splitNl_ne_nil X')
      | cons l ls =>
        rw [List.cons_append, splitNl, if_neg hc, hX]
        rfl

theorem splitNl_no_nl : ∀ {A : LC}, (∀ ch ∈ A, ch ≠ '\n') → splitNl A = [A] := by
  intro A
  induction A with
  | nil => intro h; rfl
  | cons c r ih =>
    intro h
    rw [splitNl, if_neg (h c (List.mem_cons_self _ _)),
      ih (fun ch hch => h ch (List.mem_cons_of_mem _ hch))]

theorem mem_splitNl_joinNl : ∀ {ls : List LC}, (∀ l ∈ ls, ∀ ch ∈ l, ch ≠ '\n') →
    ∀ l ∈ ls, l ∈ splitNl (joinNl ls) := by
  intro ls
  induction ls with
  | nil => intro h l hl; cases hl
  | cons l0 ls' ih =>
    intro h l hl
    cases ls' with
    | nil =>
      rcases List.mem_cons.1 hl with h' | h'
      · rw [joinNl, splitNl_no_nl (h l0 (List.mem_cons_self _ _)), h']
        exact List.mem_cons_self _ _
      · cases h'
    | cons l1 ls'' =>
      have hj : joinNl (l0 :: l1 :: ls'') = l0 ++ '\n' :: joinNl (l1 :: ls'') := rfl
      rw [hj, splitNl_append]
      rcases List.mem_cons.1 hl with h' | h'
      · apply List.mem_append_left
        rw [splitNl_no_nl (h l0 (List.mem_cons_self _ _)), h']
        exact List.mem_cons_self _ _
      · exact List.mem_append_right _
          (ih (fun x hx => h x (List.mem_cons_of_mem _ hx)) l h')

/- ------------------------------------------------------------------ -/
/- Dictionary insertion lemmas.                                        -/
/- ------------------------------------------------------------------ -/

theorem mem_keys_dictInsertC_self : ∀ (d : List (LC × CInfo)) (k : LC) (v : CInfo),
    k ∈ (dictInsertC d k v).map Prod.fst := by
  intro d k v
  induction d with
  | nil => exact List.mem_cons_self _ _
  | cons q r ih =>
    obtain ⟨k', v'⟩ := q
    rw [dictInsertC]
    by_cases hk : k' = k
    · rw [if_pos hk, List.map_cons]
      exact List.mem_cons.2 (Or.inl hk.symm)
    · rw [if_neg hk, List.map_cons]
      exact List.mem_cons_of_mem _ ih

theorem mem_keys_dictInsertC_mono : ∀ (d : List (LC × CInfo)) (k : LC) (v : CInfo)
    {k' : LC}, k' ∈ d.map Prod.fst → k' ∈ (dictInsertC d k v).map Prod.fst := by
  intro d k v
  induction d with
  | nil => intro k' h; cases h
  | cons q r ih =>
    obtain ⟨k0, v0⟩ := q
    intro k' h
    rw [List.map_cons] at h
    rw [dictInsertC]
    by_cases hk : k0 = k
    · rw [if_pos hk, List.map_cons]
      exact h
    · rw [if_neg hk, List.map_cons]
      rcases List.mem_cons.1 h with h' | h'
      · exact List.mem_cons.2 (Or.inl h')
      · exact List.mem_cons_of_mem _ (ih h')

theorem mem_dictInsertT_self : ∀ (d : Metadata) (k : LC) (v : TInfo),
    (k, v) ∈ dictInsertT d k v := by
  intro d k v
  induction d with
  | nil => exact List.mem_cons_self _ _
  | cons q r ih =>
    obtain ⟨k0, v0⟩ := q
    rw [dictInsertT]
    by_cases hk : k0 = k
    · rw [if_pos hk, hk]
      exact List.mem_cons_self _ _
    · rw [if_neg hk]
      exact List.mem_cons_of_mem _ ih

theorem mem_dictInsertT_preserve : ∀ (d : Metadata) (k' : LC) (v' : TInfo)
    {k : LC} {v : TInfo}, (k, v) ∈ d → k' ≠ k → (k, v) ∈ dictInsertT d k' v' := by
  intro d k' v'
  induction d with
  | nil => intro k v h; cases h
  | cons q r ih =>
    obtain ⟨k0, v0⟩ := q
    intro k v h hne
    rw [dictInsertT]
    rcases List.mem_cons.1 h with h' | h'
    · have hk0 : k0 = k := congrArg Prod.fst h'.symm
      by_cases hx : k0 = k'
      · exact absurd (hx.symm.trans hk0) hne
      · rw [if_neg (fun he => hx he)]
        exact List.mem_cons.2 (Or.inl h')
    · by_cases hx : k0 = k'
      · rw [if_pos hx]
        exact List.mem_cons_of_mem _ h'
      · rw [if_neg hx]
        exact List.mem_cons_of_mem _ (ih h' hne)

theorem dictInsertT_keys_new : ∀ {d : Metadata} {k : LC}, k ∉ d.map Prod.fst →
    ∀ v : TInfo, (dictInsertT d k v).map Prod.fst = d.map Prod.fst ++ [k] := by
  intro d
  induction d with
  | nil => intro k h v; rfl
  | cons q r ih =>
    obtain ⟨k0, v0⟩ := q
    intro k h v
    rw [List.map_cons] at h
    have hk0 : k0 ≠ k := fun he => h (List.mem_cons.2 (Or.inl he.symm))
    rw [dictInsertT, if_neg hk0, List.map_cons, List.map_cons,
      ih (fun hx => h (List.mem_cons_of_mem _ hx)) v, List.cons_append]

/- ------------------------------------------------------------------ -/
/- Behaviour of the per-line loop on rendered column lines.            -/
/- ------------------------------------------------------------------ -/

theorem dropTrailing_id {b : Char} (hb : isPySpace b = false) (X : LC) :
    dropTrailing isPySpace (X ++ [b]) = X ++ [b] := by
  rw [dropTrailing, List.reverse_append]
  have h1 : ([b].reverse ++ X.reverse).dropWhile isPySpace = [b].reverse ++ X.reverse := by
    rw [List.reverse_singleton, List.cons_append, List.dropWhile_cons, hb]
    simp
  rw [h1]
  simp

theorem pyStrip_id {a b : Char} (ha : isPySpace a = false) (hb : isPySpace b = false)
    (X : LC) : pyStrip (a :: (X ++ [b])) = a :: (X ++ [b]) := by
  rw [pyStrip, List.dropWhile_cons, ha]
  have h2 : a :: (X ++ [b]) = (a :: X) ++ [b] := by rw [List.cons_append]
  rw [if_neg (by simp), h2, dropTrailing_id hb]

theorem renderCol_shape (cl : RCol) (hcl : WfCol cl) :
    ∃ (n0 : Char) (n' : LC) (t0 : Char) (ty' : LC),
      cl.name = n0 :: n' ∧ cl.ty = t0 :: ty' ∧
        isWordChar n0 = true ∧ (∀ c ∈ n', isWordChar c = true) ∧
        isWordChar t0 = true ∧ (∀ c ∈ ty', isWordChar c = true) := by
  obtain ⟨⟨hn_ne, hn_w⟩, ⟨ht_ne, ht_w⟩, _⟩ := hcl
  cases hn : cl.name with
  | nil => exact absurd hn hn_ne
  | cons n0 n' =>
    cases ht : cl.ty with
    | nil => exact absurd ht ht_ne
    | cons t0 ty' =>
      rw [hn] at hn_w
      rw [ht] at ht_w
      exact ⟨n0, n', t0, ty', rfl, rfl, hn_w n0 (List.mem_cons_self _ _),
        fun c hc => hn_w c (List.mem_cons_of_mem _ hc),
        ht_w t0 (List.mem_cons_self _ _),
        fun c hc => ht_w c (List.mem_cons_of_mem _ hc)⟩

theorem pyStrip_renderCol {cl : RCol} (hcl : WfCol cl) :
    pyStrip (renderCol cl) = renderCol cl := by
  obtain ⟨n0, n', t0, ty', hn, ht, hw0, hw', hwt, hwty⟩ := renderCol_shape cl hcl
  obtain ⟨Y, b, hY⟩ := (List.eq_nil_or_concat (t0 :: ty')).resolve_left (by simp)
  have hb : isWordChar b = true := by
    have hmem : b ∈ t0 :: ty' := by
      rw [hY, List.concat_eq_append]
      exact List.mem_append_right _ (List.mem_cons_self _ _)
    rcases List.mem_cons.1 hmem with h' | h'
    · rw [h']; exact hwt
    · exact hwty b h'
  have hform : renderCol cl = n0 :: ((n' ++ ' ' :: Y) ++ [b]) := by
    rw [renderCol, hn, ht, hY, List.concat_eq_append]
    simp
  rw [hform, pyStrip_id (word_not_space hw0) (word_not_space hb)]

theorem reMatchCol_renderCol {cl : RCol} (hcl : WfCol cl) :
    reMatchCol (renderCol cl) = some (cl.name, cl.ty) := by
  obtain ⟨n0, n', t0, ty', hn, ht, hw0, hw', hwt, hwty⟩ := renderCol_shape cl hcl
  have hword : ∀ c ∈ cl.name, isWordChar c = true := hcl.1.2
  have h1 : (renderCol cl).takeWhile isWordChar = cl.name := by
    rw [renderCol]
    exact takeWhile_append_stop hword (by decide) _
  have h2 : (renderCol cl).drop cl.name.length = ' ' :: cl.ty := by
    rw [renderCol]
    exact List.drop_left _ _
  have h3 : (' ' :: cl.ty).takeWhile isPySpace = [' '] := by
    rw [List.takeWhile_cons, if_pos (by decide), ht, List.takeWhile_cons,
      word_not_space hwt]
    simp
  have h4 : (' ' :: cl.ty).drop 1 = cl.ty := by
    rw [List.drop_succ_cons, List.drop_zero]
  have h5 : cl.ty.takeWhile isWordChar = cl.ty := takeWhile_all hcl.2.1.2
  simp only [reMatchCol, h1, h2, h3, h4, h5]
  rw [if_neg (by rw [hn]; simp), if_neg (by simp)]
  have hlen : ([' '] : LC).length = 1 := rfl
  rw [hlen, h4, h5, if_neg hcl.2.1.1]

theorem processLine_col {cl : RCol} (hcl : WfCol cl) (st : TInfo × Option LC) :
    processLine st (renderCol cl)
      = (⟨st.1.comment, dictInsertC st.1.columns cl.name ⟨cl.ty, st.2⟩,
          st.1.constraints⟩, none) := by
  obtain ⟨n0, n', t0, ty', hn, ht, hw0, hw', hwt, hwty⟩ := renderCol_shape cl hcl
  have hhead : renderCol cl = n0 :: (n' ++ ' ' :: cl.ty) := by
    rw [renderCol, hn, List.cons_append]
  simp only [processLine, pyStrip_renderCol hcl]
  rw [if_neg (by rw [hhead]; simp)]
  rw [if_neg (by rw [hcl.2.2.1]; exact Bool.false_ne_true)]
  rw [if_neg (by
    rw [hhead, startsWithS_ne_head (fun h => word_ne hw0 (by decide) h.symm)]
    exact Bool.false_ne_true)]
  rw [if_neg (by
    rw [hcl.2.2.2.1, hcl.2.2.2.2]
    simp)]
  rw [reMatchCol_renderCol hcl]

theorem processLine_cols_mono (st : TInfo × Option LC) (line : LC) :
    ∀ k ∈ st.1.columns.map Prod.fst,
      k ∈ ((processLine st line).1.columns).map Prod.fst := by
  intro k hk
  rw [processLine]
  by_cases h1 : pyStrip line = []
  · rw [if_pos h1]; exact hk
  rw [if_neg h1]
  by_cases h2 : startsWithS ("CREATE TABLE".toList) (pyStrip line) = true
  · rw [if_pos h2]; exact hk
  rw [if_neg h2]
  by_cases h3 : startsWithS ['-', '-'] (pyStrip line) = true
  · rw [if_pos h3]; exact hk
  rw [if_neg h3]
  by_cases h4 : (containsS ("PRIMARY KEY".toList) (pyStrip line)
      || containsS ("FOREIGN KEY".toList) (pyStrip line)) = true
  · rw [if_pos h4]; exact hk
  rw [if_neg h4]
  cases hm : reMatchCol (pyStrip line) with
  | none => exact hk
  | some q =>
    obtain ⟨n, t⟩ := q
    exact mem_keys_dictInsertC_mono _ _ _ hk

theorem foldl_cols_mono : ∀ (lines : List LC) (st : TInfo × Option LC),
    ∀ k ∈ st.1.columns.map Prod.fst,
      k ∈ ((lines.foldl processLine st).1.columns).map Prod.fst := by
  intro lines
  induction lines with
  | nil => intro st k hk; exact hk
  | cons l rest ih =>
    intro st k hk
    rw [List.foldl_cons]
    exact ih _ k (processLine_cols_mono st l k hk)

theorem foldl_cols_hit : ∀ (lines : List LC) (st : TInfo × Option LC) {cl : RCol},
    WfCol cl → renderCol cl ∈ lines →
      cl.name ∈ ((lines.foldl processLine st).1.columns).map Prod.fst := by
  intro lines
  induction lines with
  | nil => intro st cl hcl h; cases h
  | cons l rest ih =>
    intro st cl hcl h
    rw [List.foldl_cons]
    rcases List.mem_cons.1 h with h' | h'
    · subst h'
      rw [processLine_col hcl st]
      exact foldl_cols_mono rest _ cl.name (mem_keys_dictInsertC_self _ _ _)
    · exact ih _ hcl h'

/- ------------------------------------------------------------------ -/
/- Decomposition of segment texts into lines.                          -/
/- ------------------------------------------------------------------ -/

theorem renderTable_decomp (t : RTable) :
    ∃ A, renderTable t
      = A ++ '\n' :: (joinNl (t.cols.map renderCol) ++ '\n' :: [')', ';']) := by
  refine ⟨(match t.comment with
    | some c => '-' :: '-' :: ' ' :: (c ++ ['\n'])
    | none => ([] : LC)) ++ ("CREATE TABLE ".toList ++ (t.name ++ [' ', '('])), ?_⟩
  rw [renderTable, renderTableBody]
  simp

theorem segText_decomp : ∀ (g : List RTable) (t' : RTable), t' ∈ g →
    ∃ A B, B ≠ [] ∧
      segText g = A ++ '\n' :: (joinNl (t'.cols.map renderCol) ++ '\n' :: B) := by
  intro g
  induction g with
  | nil => intro t' h; cases h
  | cons t0 g' ih =>
    intro t' h
    rcases List.mem_cons.1 h with h' | h'
    · subst h'
      obtain ⟨A, hA⟩ := renderTable_decomp t'
      cases g' with
      | nil =>
        refine ⟨A, [')', ';'], by simp, ?_⟩
        rw [segText, List.map_cons, List.map_nil, joinNl, hA]
      | cons t1 g'' =>
        refine ⟨A, ')' :: ';' :: '\n' :: segText (t1 :: g''), by simp, ?_⟩
        rw [segText_cons (by simp), hA]
        simp [List.append_assoc]
    · have hg' : g' ≠ [] := by
        intro he
        rw [he] at h'
        cases h'
      obtain ⟨A, B, hB, hAB⟩ := ih t' h'
      refine ⟨renderTable t0 ++ '\n' :: A, B, hB, ?_⟩
      rw [segText_cons hg', hAB]
      simp [List.append_assoc]

theorem dropLast_decomp (A J : LC) {B : LC} (hB : B ≠ []) :
    (A ++ '\n' :: (J ++ '\n' :: B)).dropLast
      = A ++ '\n' :: (J ++ '\n' :: B.dropLast) := by
  rw [dropLast_append_ne A (by simp),
    dropLast_cons_ne _ (fun he => by cases (List.append_eq_nil.1 he).2),
    dropLast_append_ne J (by simp), dropLast_cons_ne _ hB]

theorem mem_splitNl_of_decomp {cols : List RCol} (hw : ∀ c ∈ cols, WfCol c)
    {cl : RCol} (hcl : cl ∈ cols) (A B : LC) :
    renderCol cl ∈ splitNl (A ++ '\n' :: (joinNl (cols.map renderCol) ++ '\n' :: B)) := by
  rw [splitNl_append, splitNl_append]
  refine List.mem_append_right _ (List.mem_append_left _ ?_)
  apply mem_splitNl_joinNl
  · intro l hl
    obtain ⟨c0, hc0, hrc⟩ := List.mem_map.1 hl
    intro ch hch
    rw [← hrc] at hch
    rcases mem_renderCol (hw c0 hc0) ch hch with hword | hsp
    · exact word_ne hword (by decide)
    · rw [hsp]; decide
  · exact List.mem_map_of_mem renderCol hcl

theorem mem_line_seg {g : List RTable} (hwf : ∀ t ∈ g, WfTable t) {t' : RTable}
    (ht' : t' ∈ g) {cl : RCol} (hcl : cl ∈ t'.cols) :
    renderCol cl ∈ splitNl (segText g) ∧
      renderCol cl ∈ splitNl ((segText g).dropLast) := by
  obtain ⟨A, B, hB, hAB⟩ := segText_decomp g t' ht'
  have hw : ∀ c ∈ t'.cols, WfCol c := (hwf t' ht').2.1
  constructor
  · rw [hAB]
    exact mem_splitNl_of_decomp hw hcl A B
  · rw [hAB, dropLast_decomp A _ hB]
    exact mem_splitNl_of_decomp hw hcl A B.dropLast

/- ------------------------------------------------------------------ -/
/- The regex search on segment texts.                                  -/
/- ------------------------------------------------------------------ -/

theorem segText_form_commented {hd : RTable} {c : LC} (hcm : hd.comment = some c)
    (tl : List RTable) :
    ∃ z, segText (hd :: tl)
      = '-' :: '-' :: (' ' :: c ++ '\n' ::
          ("CREATE TABLE ".toList ++ (hd.name ++ ' ' :: z))) := by
  cases tl with
  | nil =>
    refine ⟨'(' :: '\n' :: (joinNl (hd.cols.map renderCol) ++ '\n' :: ')' :: ';' :: []), ?_⟩
    have h0 : segText [hd] = renderTable hd ++ [] := by
      rw [segText, List.map_cons, List.map_nil, joinNl, List.append_nil]
    rw [h0, renderTable_commented_decomp hcm []]
  | cons t1 tl' =>
    refine ⟨'(' :: '\n' :: (joinNl (hd.cols.map renderCol)
      ++ '\n' :: ')' :: ';' :: ('\n' :: segText (t1 :: tl'))), ?_⟩
    rw [segText_cons (by simp), renderTable_commented_decomp hcm ('\n' :: segText (t1 :: tl'))]

theorem segText_dropLast_form_commented {hd : RTable} {c : LC}
    (hcm : hd.comment = some c) (tl : List RTable) :
    ∃ z, (segText (hd :: tl)).dropLast
      = '-' :: '-' :: (' ' :: c ++ '\n' ::
          ("CREATE TABLE ".toList ++ (hd.name ++ ' ' :: z))) := by
  cases tl with
  | nil =>
    refine ⟨'(' :: '\n' :: (joinNl (hd.cols.map renderCol) ++ ['\n', ')']), ?_⟩
    have h0 : segText [hd] = renderTableBody hd ++ [';'] := by
      rw [segText, List.map_cons, List.map_nil, joinNl, renderTable]
    rw [h0, dropLast_singleton_append, renderTableBody_commented_decomp hcm]
  | cons t1 tl' =>
    refine ⟨'(' :: '\n' :: (joinNl (hd.cols.map renderCol)
      ++ '\n' :: ')' :: ';' :: ('\n' :: (segText (t1 :: tl')).dropLast)), ?_⟩
    rw [segText_cons (by simp), dropLast_append_ne _ (by simp),
      dropLast_cons_ne _ (segText_ne_nil (by simp)),
      renderTable_commented_decomp hcm ('\n' :: (segText (t1 :: tl')).dropLast)]

theorem search_seg_commented {hd : RTable} {c : LC} (hwf : WfTable hd)
    (hcm : hd.comment = some c) (tl : List RTable) (T : LC)
    (hT : T = segText (hd :: tl) ∨ T = (segText (hd :: tl)).dropLast) :
    searchCmtCreate T = some (' ' :: c, hd.name) := by
  have hc : ∀ ch ∈ c, ch ≠ '\n' := by
    have h := hwf.2.2
    rw [hcm] at h
    exact fun ch hch => (h ch hch).1
  rcases hT with h | h
  · obtain ⟨z, hz⟩ := segText_form_commented hcm tl
    rw [h, hz]
    exact search_render hc hwf.1 z
  · obtain ⟨z, hz⟩ := segText_dropLast_form_commented hcm tl
    rw [h, hz]
    exact search_render hc hwf.1 z

theorem segText_nodash {g : List RTable} (hwf : ∀ t ∈ g, WfTable t)
    (hnc : ∀ t ∈ g, t.comment = none) : ∀ ch ∈ segText g, ch ≠ '-' := by
  rw [segText]
  exact forall_mem_joinNl (by decide) _ (fun l hl => by
    obtain ⟨t, ht, hrt⟩ := List.mem_map.1 hl
    intro x hx
    rw [← hrt] at hx
    exact renderTable_nodash (hwf t ht) (hnc t ht) x hx)

/- ------------------------------------------------------------------ -/
/- Per-segment behaviour of parse_context.                             -/
/- ------------------------------------------------------------------ -/

theorem parseSegment_uncommented {g : List RTable} (hwf : ∀ t ∈ g, WfTable t)
    (hnc : ∀ t ∈ g, t.comment = none) (dict : Metadata) (T : LC)
    (hT : T = segText g ∨ T = (segText g).dropLast) :
    parseSegment dict T = dict := by
  have hnd : ∀ ch ∈ T, ch ≠ '-' := by
    rcases hT with h | h
    · rw [h]; exact segText_nodash hwf hnc
    · rw [h]
      exact fun ch hch => segText_nodash hwf hnc ch (mem_of_mem_dropLast hch)
  rw [parseSegment, search_nodash hnd]

theorem parseSegment_commented {hd : RTable} {tl : List RTable} {c : LC}
    (hwf : ∀ t ∈ hd :: tl, WfTable t) (hcm : hd.comment = some c)
    (dict : Metadata) (T : LC)
    (hT : T = segText (hd :: tl) ∨ T = (segText (hd :: tl)).dropLast) :
    ∃ info, parseSegment dict T = dictInsertT dict hd.name info ∧
      ∀ t' ∈ hd :: tl, ∀ cl ∈ t'.cols, cl.name ∈ info.columns.map Prod.fst := by
  have hs := search_seg_commented (hwf hd (List.mem_cons_self _ _)) hcm tl T hT
  refine ⟨((splitNl T).foldl processLine (⟨pyStrip (' ' :: c), [], []⟩, none)).1, ?_, ?_⟩
  · rw [parseSegment, hs]
  · intro t' ht' cl hcl
    have hline := mem_line_seg hwf ht' hcl
    have hmem : renderCol cl ∈ splitNl T := by
      rcases hT with h | h
      · rw [h]; exact hline.1
      · rw [h]; exact hline.2
    exact foldl_cols_hit _ _ ((hwf t' ht').2.1 cl hcl) hmem

/- ------------------------------------------------------------------ -/
/- Locating a commented table's segment group.                         -/
/- ------------------------------------------------------------------ -/

theorem segmentsOf_eq_take : ∀ (rest : List RTable) (t : RTable),
    segmentsOf (t :: rest)
      = (t :: rest.takeWhile (fun x => !x.comment.isSome))
          :: segmentsOf (rest.dropWhile (fun x => !x.comment.isSome)) := by
  intro rest
  induction rest with
  | nil =>
    intro t
    rw [List.takeWhile_nil, List.dropWhile_nil]
    exact segmentsOf_cons_of_nil rfl
  | cons r rest' ih =>
    intro t
    by_cases hc : r.comment.isSome = true
    · rw [segmentsOf_cons_commented (ih r) hc, List.takeWhile_cons, List.dropWhile_cons]
      rw [hc]
      rw [show (!true) = false from rfl, if_neg (by simp), if_neg (by simp), ← ih r]
    · have hcf : r.comment.isSome = false := by
        cases hx : r.comment.isSome
        · rfl
        · exact absurd hx hc
      rw [segmentsOf_cons_uncommented (ih r) hcf, List.takeWhile_cons, List.dropWhile_cons]
      rw [hcf]
      rw [show (!false) = true from rfl, if_pos rfl, if_pos rfl]

theorem dropWhile_append_stop {α : Type} (p : α → Bool) {a : α} (ha : p a = false) :
    ∀ (P rest : List α), (P ++ a :: rest).dropWhile p = P.dropWhile p ++ a :: rest := by
  intro P rest
  induction P with
  | nil =>
    rw [List.nil_append, List.dropWhile_nil, List.nil_append, List.dropWhile_cons, ha]
    simp
  | cons q Q ih =>
    rw [List.cons_append, List.dropWhile_cons, List.dropWhile_cons]
    by_cases hq : p q = true
    · rw [if_pos hq, if_pos hq, ih]
    · have hqf : ¬(p q = true) := hq
      rw [if_neg hqf, if_neg hqf, List.cons_append]

theorem dropWhile_length_le {α : Type} (p : α → Bool) :
    ∀ l : List α, (l.dropWhile p).length ≤ l.length := by
  intro l
  induction l with
  | nil => exact Nat.le_refl _
  | cons a r ih =>
    rw [List.dropWhile_cons]
    by_cases ha : p a = true
    · rw [if_pos ha]
      exact Nat.le_trans ih (Nat.le_succ _)
    · rw [if_neg ha]

theorem mem_segmentsOf_aux : ∀ (n : ℕ) (P : List RTable), P.length ≤ n →
    ∀ {ta : RTable} (rest : List RTable), ta.comment.isSome = true →
      (ta :: rest.takeWhile (fun x => !x.comment.isSome))
        ∈ segmentsOf (P ++ ta :: rest) := by
  intro n
  induction n with
  | zero =>
    intro P hP ta rest hc
    have hPnil : P = [] := List.length_eq_zero.1 (Nat.le_zero.1 hP)
    rw [hPnil, List.nil_append, segmentsOf_eq_take]
    exact List.mem_cons_self _ _
  | succ n ih =>
    intro P hP ta rest hc
    cases P with
    | nil =>
      rw [List.nil_append, segmentsOf_eq_take]
      exact List.mem_cons_self _ _
    | cons p P' =>
      rw [List.cons_append, segmentsOf_eq_take]
      apply List.mem_cons_of_mem
      have hsplit : (P' ++ ta :: rest).dropWhile (fun x => !x.comment.isSome)
          = (P'.dropWhile (fun x => !x.comment.isSome)) ++ ta :: rest :=
        dropWhile_append_stop _ (by rw [hc]; rfl) P' rest
      rw [hsplit]
      exact ih _ (Nat.le_trans (dropWhile_length_le _ P')
        (Nat.le_of_succ_le_succ hP)) rest hc

/- ------------------------------------------------------------------ -/
/- Keys produced by the segment fold.                                  -/
/- ------------------------------------------------------------------ -/

/-- The names of the commented segment heads, in order: exactly the table
names the parser will store. -/
def headNamesC : List (List RTable) → List LC
  | [] => []
  | [] :: gs => headNamesC gs
  | (h :: _) :: gs => if h.comment.isSome then h.name :: headNamesC gs else headNamesC gs

theorem headNamesC_cons (h : RTable) (g' : List RTable) (gs : List (List RTable)) :
    headNamesC ((h :: g') :: gs)
      = if h.comment.isSome then h.name :: headNamesC gs else headNamesC gs := rfl

theorem headNamesC_segmentsOf : ∀ ts : List RTable,
    headNamesC (segmentsOf ts)
      = (ts.filter (fun t => t.comment.isSome)).map RTable.name := by
  intro ts
  induction ts with
  | nil => rfl
  | cons t rest ih =>
    cases rest with
    | nil =>
      rw [segmentsOf_cons_of_nil (show segmentsOf ([] : List RTable) = [] from rfl),
        headNamesC_cons]
      by_cases hc : t.comment.isSome = true
      · simp [hc, headNamesC]
      · simp [hc, headNamesC]
    | cons r0 rest' =>
      cases hs : segmentsOf (r0 :: rest') with
      | nil => exact absurd hs (segmentsOf_ne_nil (by simp))
      | cons g gs =>
        obtain ⟨g'', hg''⟩ := segmentsOf_head hs
        subst hg''
        rw [hs, headNamesC_cons] at ih
        by_cases hcr : r0.comment.isSome = true
        · rw [if_pos hcr] at ih
          rw [segmentsOf_cons_commented hs hcr, headNamesC_cons, headNamesC_cons,
            if_pos hcr, ih]
          by_cases hc : t.comment.isSome = true
          · simp [hc, List.filter_cons]
          · simp [hc, List.filter_cons]
        · have hcrf : r0.comment.isSome = false := by
            cases hx : r0.comment.isSome
            · rfl
            · exact absurd hx hcr
          rw [if_neg hcr] at ih
          rw [segmentsOf_cons_uncommented hs hcrf, headNamesC_cons, ih]
          by_cases hc : t.comment.isSome = true
          · simp [hc, List.filter_cons]
          · simp [hc, List.filter_cons]

theorem parse_render {ts : List RTable} (h : ∀ t ∈ ts, WfTable t) :
    parse_context (render ts) = (segTexts (segmentsOf ts)).foldl parseSegment [] := by
  cases ts with
  | nil => rfl
  | cons t rest =>
    rw [parse_context, reSplitAux, reSplit_render _ h []]
    cases hsg : segmentsOf (t :: rest) with
    | nil => exact absurd hsg (segmentsOf_ne_nil (by simp))
    | cons g gs => rw [consHead_nil segTexts_cons_ne_nil]

theorem segTexts_split (g : List RTable) (gs' : List (List RTable)) :
    ∃ T, segTexts (g :: gs') = T :: segTexts gs' ∧
      (T = segText g ∨ T = (segText g).dropLast) := by
  cases gs' with
  | nil => exact ⟨segText g, rfl, Or.inl rfl⟩
  | cons gg ggs => exact ⟨(segText g).dropLast, rfl, Or.inr rfl⟩

theorem fold_keys : ∀ (gs : List (List RTable)) (dict : Metadata),
    (∀ g ∈ gs, g ≠ [] ∧ (∀ t ∈ g, WfTable t) ∧ ∀ t ∈ g.tail, t.comment = none) →
    (∀ nm ∈ headNamesC gs, nm ∉ dict.map Prod.fst) →
    (headNamesC gs).Nodup →
    ((segTexts gs).foldl parseSegment dict).map Prod.fst
      = dict.map Prod.fst ++ headNamesC gs := by
  intro gs
  induction gs with
  | nil =>
    intro dict hinv hfresh hnd
    simp [segTexts, headNamesC]
  | cons g gs' ih =>
    intro dict hinv hfresh hnd
    obtain ⟨hgne, hgwf, hgtail⟩ := hinv g (List.mem_cons_self _ _)
    cases g with
    | nil => exact absurd rfl hgne
    | cons hd tl =>
      obtain ⟨T, hTeq, hTform⟩ := segTexts_split (hd :: tl) gs'
      rw [hTeq, List.foldl_cons]
      have hsub : ∀ g' ∈ gs', g' ≠ [] ∧ (∀ t ∈ g', WfTable t) ∧
          ∀ t ∈ g'.tail, t.comment = none :=
        fun g' hg' => hinv g' (List.mem_cons_of_mem _ hg')
      cases hcmo : hd.comment with
      | some c =>
        obtain ⟨info, hpe, _⟩ := parseSegment_commented hgwf hcmo dict T hTform
        rw [hpe]
        have hnames : headNamesC ((hd :: tl) :: gs') = hd.name :: headNamesC gs' := by
          rw [headNamesC_cons, if_pos (by rw [hcmo]; rfl)]
        rw [hnames] at hfresh hnd ⊢
        have hfresh_hd : hd.name ∉ dict.map Prod.fst :=
          hfresh hd.name (List.mem_cons_self _ _)
        have hkeys := dictInsertT_keys_new hfresh_hd info
        have hnd' := (List.nodup_cons.1 hnd).2
        have hni := (List.nodup_cons.1 hnd).1
        rw [ih (dictInsertT dict hd.name info) hsub ?hfr hnd', hkeys]
        · simp [List.append_assoc]
        case hfr =>
          intro nm hnm
          rw [hkeys]
          intro hmem
          rcases List.mem_append.1 hmem with h' | h'
          · exact hfresh nm (List.mem_cons_of_mem _ hnm) h'
          · rcases List.mem_cons.1 h' with h'' | h''
            · rw [h''] at hnm
              exact hni hnm
            · cases h''
      | none =>
        have hnc : ∀ t ∈ hd :: tl, t.comment = none := by
          intro x hx
          rcases List.mem_cons.1 hx with h' | h'
          · rw [h']; exact hcmo
          · exact hgtail x h'
        rw [parseSegment_uncommented hgwf hnc dict T hTform]
        have hnames : headNamesC ((hd :: tl) :: gs') = headNamesC gs' := by
          rw [headNamesC_cons, if_neg (by rw [hcmo]; simp)]
        rw [hnames] at hfresh hnd ⊢
        exact ih dict hsub hfresh hnd

theorem fold_preserve : ∀ (gs : List (List RTable)) (dict : Metadata) {k : LC} {v : TInfo},
    (∀ g ∈ gs, g ≠ [] ∧ (∀ t ∈ g, WfTable t) ∧ ∀ t ∈ g.tail, t.comment = none) →
    (k, v) ∈ dict → (∀ nm ∈ headNamesC gs, nm ≠ k) →
    (k, v) ∈ (segTexts gs).foldl parseSegment dict := by
  intro gs
  induction gs with
  | nil =>
    intro dict k v hinv hmem hne
    exact hmem
  | cons g gs' ih =>
    intro dict k v hinv hmem hne
    obtain ⟨hgne, hgwf, hgtail⟩ := hinv g (List.mem_cons_self _ _)
    cases g with
    | nil => exact absurd rfl hgne
    | cons hd tl =>
      obtain ⟨T, hTeq, hTform⟩ := segTexts_split (hd :: tl) gs'
      rw [hTeq, List.foldl_cons]
      have hsub : ∀ g' ∈ gs', g' ≠ [] ∧ (∀ t ∈ g', WfTable t) ∧
          ∀ t ∈ g'.tail, t.comment = none :=
        fun g' hg' => hinv g' (List.mem_cons_of_mem _ hg')
      cases hcmo : hd.comment with
      | some c =>
        obtain ⟨info, hpe, _⟩ := parseSegment_commented hgwf hcmo dict T hTform
        rw [hpe]
        have hnames : headNamesC ((hd :: tl) :: gs') = hd.name :: headNamesC gs' := by
          rw [headNamesC_cons, if_pos (by rw [hcmo]; rfl)]
        rw [hnames] at hne
        refine ih _ hsub ?_ (fun nm hnm => hne nm (List.mem_cons_of_mem _ hnm))
        exact mem_dictInsertT_preserve dict hd.name info hmem
          (hne hd.name (List.mem_cons_self _ _))
      | none =>
        have hnc : ∀ t ∈ hd :: tl, t.comment = none := by
          intro x hx
          rcases List.mem_cons.1 hx with h' | h'
          · rw [h']; exact hcmo
          · exact hgtail x h'
        rw [parseSegment_uncommented hgwf hnc dict T hTform]
        have hnames : headNamesC ((hd :: tl) :: gs') = headNamesC gs' := by
          rw [headNamesC_cons, if_neg (by rw [hcmo]; simp)]
        rw [hnames] at hne
        exact ih dict hsub hmem hne

theorem segfold_entry : ∀ (gs : List (List RTable)) (dict : Metadata) {hd : RTable}
    {tl : List RTable} {c : LC},
    (∀ g ∈ gs, g ≠ [] ∧ (∀ t ∈ g, WfTable t) ∧ ∀ t ∈ g.tail, t.comment = none) →
    (hd :: tl) ∈ gs → hd.comment = some c → (headNamesC gs).Nodup →
    (∀ nm ∈ headNamesC gs, nm ∉ dict.map Prod.fst) →
    ∃ info, (hd.name, info) ∈ (segTexts gs).foldl parseSegment dict ∧
      ∀ t' ∈ hd :: tl, ∀ cl ∈ t'.cols, cl.name ∈ info.columns.map Prod.fst := by
  intro gs
  induction gs with
  | nil =>
    intro dict hd tl c hinv hmem hcm hnd hfresh
    cases hmem
  | cons g gs' ih =>
    intro dict hd tl c hinv hmem hcm hnd hfresh
    obtain ⟨hgne, hgwf, hgtail⟩ := hinv g (List.mem_cons_self _ _)
    have hsub : ∀ g' ∈ gs', g' ≠ [] ∧ (∀ t ∈ g', WfTable t) ∧
        ∀ t ∈ g'.tail, t.comment = none :=
      fun g' hg' => hinv g' (List.mem_cons_of_mem _ hg')
    rcases List.mem_cons.1 hmem with hg | hg
    · subst hg
      obtain ⟨T, hTeq, hTform⟩ := segTexts_split (hd :: tl) gs'
      obtain ⟨info, hpe, hcols⟩ := parseSegment_commented hgwf hcm dict T hTform
      rw [hTeq, List.foldl_cons, hpe]
      refine ⟨info, ?_, hcols⟩
      have hnames : headNamesC ((hd :: tl) :: gs') = hd.name :: headNamesC gs' := by
        rw [headNamesC_cons, if_pos (by rw [hcm]; rfl)]
      rw [hnames] at hnd
      have hni := (List.nodup_cons.1 hnd).1
      exact fold_preserve gs' _ hsub (mem_dictInsertT_self dict hd.name info)
        (fun nm hnm he => hni (by rw [← he]; exact hnm))
    · cases g with
      | nil => exact absurd rfl hgne
      | cons ghd gtl =>
        obtain ⟨T, hTeq, hTform⟩ := segTexts_split (ghd :: gtl) gs'
        rw [hTeq, List.foldl_cons]
        cases hgc : ghd.comment with
        | none =>
          have hnc : ∀ t ∈ ghd :: gtl, t.comment = none := by
            intro x hx
            rcases List.mem_cons.1 hx with h' | h'
            · rw [h']; exact hgc
            · exact hgtail x h'
          rw [parseSegment_uncommented hgwf hnc dict T hTform]
          have hnames : headNamesC ((ghd :: gtl) :: gs') = headNamesC gs' := by
            rw [headNamesC_cons, if_neg (by rw [hgc]; simp)]
          rw [hnames] at hnd hfresh
          exact ih dict hsub hg hcm hnd hfresh
        | some c2 =>
          obtain ⟨info2, hpe2, _⟩ := parseSegment_commented hgwf hgc dict T hTform
          rw [hpe2]
          have hnames : headNamesC ((ghd :: gtl) :: gs') = ghd.name :: headNamesC gs' := by
            rw [headNamesC_cons, if_pos (by rw [hgc]; rfl)]
          rw [hnames] at hnd hfresh
          have hfresh_g : ghd.name ∉ dict.map Prod.fst :=
            hfresh ghd.name (List.mem_cons_self _ _)
          have hkeys := dictInsertT_keys_new hfresh_g info2
          have hni := (List.nodup_cons.1 hnd).1
          refine ih (dictInsertT dict ghd.name info2) hsub hg hcm
            (List.nodup_cons.1 hnd).2 ?_
          intro nm hnm
          rw [hkeys]
          intro hmem2
          rcases List.mem_append.1 hmem2 with h' | h'
          · exact hfresh nm (List.mem_cons_of_mem _ hnm) h'
          · rcases List.mem_cons.1 h' with h'' | h''
            · rw [h''] at hnm
              exact hni hnm
            · cases h''

/-- C8: for a rendered well-formed schema, the parser's keys are exactly the
names of the commented tables in declaration order — N commented tables give
exactly N entries under their declared names — and a table declared without a
preceding comment line contributes no entry of its own: its name never
appears among the keys. -/
theorem claim_C8 (ts : List RTable) (h : WfSchema ts) :
    (parse_context (render ts)).map Prod.fst
        = (ts.filter (fun t => t.comment.isSome)).map RTable.name
      ∧ ∀ t ∈ ts, t.comment = none →
          t.name ∉ (parse_context (render ts)).map Prod.fst := by
  have hnd : (headNamesC (segmentsOf ts)).Nodup := by
    rw [headNamesC_segmentsOf]
    exact List.Nodup.sublist (List.Sublist.map RTable.name (List.filter_sublist ts)) h.2
  have hkeys : (parse_context (render ts)).map Prod.fst
      = (ts.filter (fun t => t.comment.isSome)).map RTable.name := by
    rw [parse_render h.1,
      fold_keys (segmentsOf ts) [] (segmentsOf_inv h.1) (by intro nm h1 h2; cases h2) hnd,
      headNamesC_segmentsOf]
    rfl
  refine ⟨hkeys, ?_⟩
  intro t ht hnone hmem
  rw [hkeys] at hmem
  obtain ⟨t', ht', hname⟩ := List.mem_map.1 hmem
  have ht'mem : t' ∈ ts := List.mem_of_mem_filter ht'
  have ht'c : t'.comment.isSome = true := by
    have hx := List.of_mem_filter ht'
    simpa using hx
  have heq : t' = t := List.inj_on_of_nodup_map h.2 ht'mem ht hname
  rw [heq, hnone] at ht'c
  cases ht'c

def tAW : RTable :=
  ⟨some ("student data".toList), "students".toList,
    [⟨"id".toList, "INTEGER".toList⟩, ⟨"age".toList, "INTEGER".toList⟩]⟩

def tBW : RTable := ⟨none, "grades".toList, [⟨"score".toList, "REAL".toList⟩]⟩

def tCW : RTable := ⟨some ("unit data".toList), "units".toList, [⟨"title".toList, "TEXT".toList⟩]⟩

def tsW : List RTable := [tAW, tBW, tCW]

/-- Witness for C8 on a three-table schema: two commented tables yield exactly
their two names as keys, and the uncommented table's name appears nowhere. -/
theorem claim_C8_witness :
    WfSchema tsW ∧
      ((parse_context (render tsW)).map Prod.fst
          = (tsW.filter (fun t => t.comment.isSome)).map RTable.name
        ∧ ∀ t ∈ tsW, t.comment = none →
            t.name ∉ (parse_context (render tsW)).map Prod.fst) :=
  ⟨by decide, claim_C8 tsW (by decide)⟩

/-- C10: an uncommented CREATE TABLE statement directly following a commented
table produces no split boundary, so the parser merges it into the preceding
commented table's segment: every column of the uncommented table appears in
the commented table's column map. -/
theorem claim_C10 (P Q : List RTable) (ta tb : RTable) (c : LC)
    (hwf : WfSchema (P ++ ta :: tb :: Q)) (hca : ta.comment = some c)
    (hcb : tb.comment = none) :
    ∃ info, (ta.name, info) ∈ parse_context (render (P ++ ta :: tb :: Q)) ∧
      ∀ cl ∈ tb.cols, cl.name ∈ info.columns.map Prod.fst := by
  have hall := hwf.1
  have hgmem : (ta :: (tb :: Q).takeWhile (fun x => !x.comment.isSome))
      ∈ segmentsOf (P ++ ta :: tb :: Q) :=
    mem_segmentsOf_aux P.length P (Nat.le_refl _) (tb :: Q) (by rw [hca]; rfl)
  have htake : (tb :: Q).takeWhile (fun x => !x.comment.isSome)
      = tb :: Q.takeWhile (fun x => !x.comment.isSome) := by
    rw [List.takeWhile_cons, if_pos (by rw [hcb]; rfl)]
  rw [htake] at hgmem
  have hnd : (headNamesC (segmentsOf (P ++ ta :: tb :: Q))).Nodup := by
    rw [headNamesC_segmentsOf]
    exact List.Nodup.sublist (List.Sublist.map RTable.name (List.filter_sublist _)) hwf.2
  obtain ⟨info, hmem, hcols⟩ := segfold_entry (segmentsOf (P ++ ta :: tb :: Q)) []
    (segmentsOf_inv hall) hgmem hca hnd (by intro nm h1 h2; cases h2)
  refine ⟨info, ?_, ?_⟩
  · rw [parse_render hall]
    exact hmem
  · intro cl hcl
    exact hcols tb (List.mem_cons_of_mem _ (List.mem_cons_self _ _)) cl hcl

def taW : RTable := ⟨some ("student data".toList), "students".toList,
  [⟨"id".toList, "INTEGER".toList⟩]⟩

def tbW : RTable := ⟨none, "grades".toList, [⟨"score".toList, "REAL".toList⟩]⟩

/-- Witness for C10: an uncommented `grades` table following the commented
`students` table merges its `score` column into the `students` entry. -/
theorem claim_C10_witness :
    WfSchema [taW, tbW] ∧ taW.comment = some ("student data".toList)
      ∧ tbW.comment = none
      ∧ ∃ info, (taW.name, info) ∈ parse_context (render [taW, tbW]) ∧
          ∀ cl ∈ tbW.cols, cl.name ∈ info.columns.map Prod.fst :=
  ⟨by decide, rfl, rfl,
    claim_C10 [] [] taW tbW ("student data".toList) (by decide) rfl rfl⟩
